import Mathlib

/-!
# ompl::base::ParamSet (src/ompl/base/src/GenericParam.cpp)

A shallow embedding of the parameter registry `ParamSet` and a verification of
its contract.

* `std::string` is a finite sequence of characters, ordered lexicographically.
* `std::map<std::string, V>` is the list of its entries in iteration order,
  strictly ascending by key, with `find` and `operator[]` assignment.
* `GenericParamPtr` is the address of a parameter object; the objects live in a
  heap shared by every registry, so that two registries holding the same
  pointer observe the same object.
* `GenericParam` (declared in `GenericParam.h`) is the pair of virtual methods
  `setValue` / `getValue` the registry calls; it is a parameter of the
  development, and `setValue` may write to any parameter object.
* `std::ostream` is the text written so far together with the state that the
  insertion of a string depends on: good state, field width, fill, adjustment.
* `include` has two models, for an argument that is another registry object
  and for the registry itself as argument; in the second the loop iterates the
  map it assigns to and is bounded by a number of iterations.
-/

namespace ompl.base

/-! ## Strings, vectors and ordered maps -/

/-- The type `std::string`: a sequence of characters; `operator<` is the lexicographic order. -/
abbrev StdString := List Char

/-- The call `v.clear()` on a `std::vector`: every element is dropped. -/
def vectorClear {α : Type} (_v : List α) : List α := []

/-- The call `v.push_back(x)` on a `std::vector`. -/
def pushBack {α : Type} (v : List α) (x : α) : List α := v ++ [x]

/-- The call `v.resize(n)` on a `std::vector<std::string>`: the first `n` elements are kept
and the vector is padded with empty strings up to length `n`. -/
def vectorResize (v : List StdString) (n : Nat) : List StdString :=
  v.take n ++ List.replicate (n - v.length) []

/-- The call `std::sort(v.begin(), v.end())` on a vector of strings: the elements arranged in
ascending order of `operator<`. -/
def stdSort (v : List StdString) : List StdString :=
  v.insertionSort (· ≤ ·)

/-- Lookup in the entry list of a map (`std::map::find`): the value of the entry whose key
is `k`, if there is one. -/
def findEntry {V : Type} : List (StdString × V) → StdString → Option V
  | [], _ => none
  | (k', v) :: t, k => if k' = k then some v else findEntry t k

/-- The assignment `m[k] = v` on the entry list of a map: the entry with key `k` gets the
value `v`; when there is none, a new entry is inserted at its place in key order. -/
def assignEntry {V : Type} (k : StdString) (v : V) : List (StdString × V) → List (StdString × V)
  | [] => [(k, v)]
  | (k', v') :: t =>
    if k < k' then (k, v) :: (k', v') :: t
    else if k' < k then (k', v') :: assignEntry k v t
    else (k', v) :: t

/-- Keys strictly ascending along the entry list: the representation invariant of `std::map`. -/
def Ordered {V : Type} (l : List (StdString × V)) : Prop :=
  l.Pairwise (fun a b => a.1 < b.1)

/-- The type `std::map<std::string, V>`: its entries in iteration order (`begin()` to
`end()`), which is strictly ascending by key. -/
structure StdMap (V : Type) where
  /-- The entries in iteration order. -/
  entries : List (StdString × V)
  /-- Keys are unique and iteration is ascending by key. -/
  ordered : Ordered entries

namespace StdMap

variable {V : Type}

/-- The empty map. -/
def empty : StdMap V := ⟨[], List.Pairwise.nil⟩

/-- The call `m.find(k)`: `none` stands for `m.end()`, `some v` for an iterator to the entry
`(k, v)`. -/
def find (m : StdMap V) (k : StdString) : Option V := findEntry m.entries k

/-- The statement `m[k] = v`. -/
def assign (m : StdMap V) (k : StdString) (v : V) : StdMap V where
  entries := assignEntry k v m.entries
  ordered := by
    have mem : ∀ (l : List (StdString × V)) (x : StdString × V),
        x ∈ assignEntry k v l → x.1 = k ∨ x ∈ l := by
      intro l
      induction l with
      | nil =>
        intro x hx
        simp only [assignEntry, List.mem_singleton] at hx
        exact Or.inl (by rw [hx])
      | cons e t ih =>
        intro x hx
        obtain ⟨k', v'⟩ := e
        simp only [assignEntry] at hx
        split_ifs at hx with h1 h2
        · rcases List.mem_cons.mp hx with h | h
          · exact Or.inl (by rw [h])
          · exact Or.inr h
        · rcases List.mem_cons.mp hx with h | h
          · exact Or.inr (by rw [h]; exact List.mem_cons_self _ _)
          · rcases ih x h with h | h
            · exact Or.inl h
            · exact Or.inr (List.mem_cons_of_mem _ h)
        · have hk : k' = k := le_antisymm (not_lt.mp h1) (not_lt.mp h2)
          rcases List.mem_cons.mp hx with h | h
          · exact Or.inl (by rw [h]; exact hk)
          · exact Or.inr (List.mem_cons_of_mem _ h)
    have ord : ∀ l : List (StdString × V), Ordered l → Ordered (assignEntry k v l) := by
      intro l
      induction l with
      | nil => intro _; simp [assignEntry, Ordered]
      | cons e t ih =>
        intro hl
        obtain ⟨k', v'⟩ := e
        have hl' := List.pairwise_cons.mp hl
        simp only [assignEntry]
        split_ifs with h1 h2
        · refine List.pairwise_cons.mpr ⟨?_, hl⟩
          intro x hx
          rcases List.mem_cons.mp hx with h | h
          · rw [h]; exact h1
          · exact lt_trans h1 (hl'.1 x h)
        · refine List.pairwise_cons.mpr ⟨?_, ih hl'.2⟩
          intro x hx
          rcases mem t x hx with h | h
          · rw [h]; exact h2
          · exact hl'.1 x h
        · exact List.pairwise_cons.mpr ⟨fun x hx => hl'.1 x hx, hl'.2⟩
    exact ord m.entries m.ordered

/-- The call `m.size()`. -/
def size (m : StdMap V) : Nat := m.entries.length

/-- The call `m.clear()`. -/
def clear (_m : StdMap V) : StdMap V := empty

/-- The keys of the map, in iteration order. -/
def keys (m : StdMap V) : List StdString := m.entries.map Prod.fst

/-- The call `m.begin()`: the entry with the least key; `none` stands for `m.end()`. -/
def first (m : StdMap V) : Option (StdString × V) := m.entries.head?

/-- The step `++it` from an iterator at the entry with key `k`: the entry with the least key
above `k` in the map as it is at that moment; `none` stands for `m.end()`. -/
def after (m : StdMap V) (k : StdString) : Option (StdString × V) :=
  m.entries.find? (fun e => decide (k < e.1))

end StdMap

/-! ## Output streams -/

/-- The type `std::ostream` as far as the insertion of strings depends on it: the characters
written so far, whether the stream is in good state, the pending field width, the fill
character and whether the adjustment is `left`. The device behind the stream accepts every
write. -/
structure OStream where
  /-- The characters written so far. -/
  content : StdString
  /-- Whether the stream is in good state. -/
  good : Bool
  /-- The field width `width()`. -/
  width : Nat
  /-- The fill character `fill()`. -/
  fill : Char
  /-- Whether `adjustfield` is `left`. -/
  adjustLeft : Bool

/-- The formatted insertion `out << s` of a string: nothing happens on a stream that is not in
good state; otherwise `s` is written, padded with the fill character up to the field width,
after `s` for the adjustment `left` and before it otherwise, and the field width is reset. -/
def OStream.insert (out : OStream) (s : StdString) : OStream :=
  if out.good then
    let padding := List.replicate (out.width - s.length) out.fill
    { out with
      content := out.content ++ (if out.adjustLeft then s ++ padding else padding ++ s)
      width := 0 }
  else out

/-- The insertion `out << std::endl`: a newline character is put, without padding, on a stream
in good state, and the stream is flushed. -/
def OStream.endl (out : OStream) : OStream :=
  if out.good then { out with content := out.content ++ "\n".toList } else out

/-! ## Parameter objects and the registry -/

/-- The type `GenericParamPtr`: a shared pointer to a parameter object, modelled by the address
of the object. A pointer held by a registry designates a live object: shared ownership keeps
the object alive as long as a registry holds it. -/
abbrev GenericParamPtr := Nat

/-- The interface `GenericParam` as far as `ParamSet` uses it: the virtual methods
`bool setValue(const std::string&)` and `std::string getValue() const`, over the state `σ` of a
parameter object. The call `setValue` is a virtual call that may write to any parameter object,
not only to the one it is called on: it is given the address of the object it is called on and
the state of all the objects, and returns its success flag and the state of all the objects
afterwards. `getValue` is `const`. -/
structure GenericParam (σ : Type) where
  /-- Method `setValue`, called on the object at the given address: the success flag and the
  state of the objects afterwards. -/
  setValue :
    GenericParamPtr → (GenericParamPtr → σ) → StdString → Bool × (GenericParamPtr → σ)
  /-- Method `getValue`: the value of the object as a string. -/
  getValue : σ → StdString

/-- What lies outside a registry: the parameter objects, by address, and the messages sent to
the diagnostic channel `msg::Interface::error`. -/
structure World (σ : Type) where
  /-- The state of the object at each address. -/
  heap : GenericParamPtr → σ
  /-- The error messages reported so far. -/
  log : List StdString

/-- The class `ParamSet`: its only data member is the map `params_`. -/
structure ParamSet where
  /-- The member `params_`. -/
  params_ : StdMap GenericParamPtr

/-- The outcome of a non-const method returning `bool`: the returned value, the registry and
the world after the call. -/
structure Outcome (σ : Type) where
  /-- The returned value. -/
  result : Bool
  /-- The registry the method was called on, after the call. -/
  self : ParamSet
  /-- The objects and diagnostics after the call. -/
  world : World σ

namespace ParamSet

variable {σ : Type}

/-- Method `ParamSet::setParam` (lines 40-51). With the key found, `setValue` is called on the
object the stored pointer designates; otherwise the error message is sent to the diagnostic
channel. -/
def setParam (P : GenericParam σ) (self : ParamSet) (w : World σ) (key value : StdString) :
    Outcome σ :=
  match self.params_.find key with
  | some p =>
    let r := P.setValue p w.heap value
    { result := r.1, self := self, world := { w with heap := r.2 } }
  | none =>
    let text := "Parameter '".toList ++ key ++ "' was not found".toList
    { result := false, self := self, world := { w with log := w.log ++ [text] } }

/-- The loop of `ParamSet::setParams` (lines 56-60) over the entries of `kv` still to visit,
with the current value of the local `result`. -/
def setParamsLoop (P : GenericParam σ) :
    List (StdString × StdString) → Bool → ParamSet → World σ → Outcome σ
  | [], result, self, w => { result := result, self := self, world := w }
  | (k, v) :: rest, result, self, w =>
    let c := self.setParam P w k v
    let r := c.result
    setParamsLoop P rest (result && r) c.self c.world

/-- Method `ParamSet::setParams` (lines 53-62). -/
def setParams (P : GenericParam σ) (self : ParamSet) (w : World σ) (kv : StdMap StdString) :
    Outcome σ :=
  setParamsLoop P kv.entries true self w

/-- Method `ParamSet::getParamNames` (lines 64-71); `params` is the content of the output
vector before the call, the result its content after. The call `params.reserve(...)` changes
the capacity only and has no counterpart here. -/
def getParamNames (self : ParamSet) (params : List StdString) : List StdString :=
  let params := vectorClear params
  let params := self.params_.entries.foldl (fun acc it => pushBack acc it.1) params
  stdSort params

/-- The loop of `ParamSet::getParamValues` (lines 78-79) from index `i` on, over the names not
yet visited. The expression `params_.find(names[i])->second` dereferences the iterator returned
by `find`; when that is `end()` the behaviour is undefined and the model returns `none`. -/
def getParamValuesLoop (P : GenericParam σ) (self : ParamSet) (w : World σ) :
    List StdString → Nat → List StdString → Option (List StdString)
  | [], _, vals => some vals
  | name :: rest, i, vals =>
    match self.params_.find name with
    | none => none
    | some p => getParamValuesLoop P self w rest (i + 1) (vals.set i (P.getValue (w.heap p)))

/-- Method `ParamSet::getParamValues` (lines 73-80); `vals` is the content of the output vector
before the call. -/
def getParamValues (P : GenericParam σ) (self : ParamSet) (w : World σ) (vals : List StdString) :
    Option (List StdString) :=
  let names := self.getParamNames []
  let vals := vectorResize vals names.length
  getParamValuesLoop P self w names 0 vals

/-- Method `ParamSet::getParams(void)` (lines 82-85): the live map. -/
def getParams (self : ParamSet) : StdMap GenericParamPtr := self.params_

/-- Method `ParamSet::getParams(std::map<std::string, std::string>&)` (lines 87-91); `params` is
the content of the output map before the call. -/
def getParamsOut (P : GenericParam σ) (self : ParamSet) (w : World σ)
    (params : StdMap StdString) : StdMap StdString :=
  self.params_.entries.foldl (fun acc it => acc.assign it.1 (P.getValue (w.heap it.2))) params

/-- Method `ParamSet::clear` (lines 104-107). -/
def clear (self : ParamSet) : ParamSet := { params_ := self.params_.clear }

/-- Method `ParamSet::print` (lines 109-113); `out` is the stream before the call, the result
the stream after. -/
def print (P : GenericParam σ) (self : ParamSet) (w : World σ) (out : OStream) : OStream :=
  self.params_.entries.foldl
    (fun o it => (((o.insert it.1).insert " = ".toList).insert (P.getValue (w.heap it.2))).endl)
    out

/-- The value read for `key` through the registry: `getValue()` of the object that the live
map `getParams()` holds under `key`. -/
def readValue (P : GenericParam σ) (self : ParamSet) (w : World σ) (key : StdString) :
    Option StdString :=
  (self.getParams.find key).map (fun p => P.getValue (w.heap p))

end ParamSet

/-- Method `ParamSet::include` (lines 93-102), called with an argument `other` that is another
object than the registry the method is called on (its content may be the same). The map `p` the
loop iterates is then not the map the loop assigns to, and the loop visits the entries of
`other` in order. The call with the registry itself as argument is `ParamSet.includeSelf`. -/
def ParamSet.include (self other : ParamSet) (pfx : StdString) : ParamSet :=
  let p := other.getParams
  if pfx.isEmpty then
    { params_ := p.entries.foldl (fun m it => m.assign it.1 it.2) self.params_ }
  else
    { params_ := p.entries.foldl (fun m it => m.assign (pfx ++ ".".toList ++ it.1) it.2)
        self.params_ }

/-- The loop of `ParamSet::include` (lines 97-98 and 100-101) when the argument `other` is the
registry the method is called on: the map `p` that is iterated is the map `params_` the loop
assigns to. The iterator is at the entry `it`, or at `end()` for `none`; the assignment is
made and `++it` then moves to the next entry of the map as the assignment left it. The key
assigned to is `key it->first`. The first argument bounds the number of iterations: the result
`none` means that the loop has not ended within that bound. -/
def includeSelfLoop (key : StdString → StdString) :
    Nat → StdMap GenericParamPtr → Option (StdString × GenericParamPtr) →
      Option (StdMap GenericParamPtr)
  | _, params_, none => some params_
  | 0, _, some _ => none
  | fuel + 1, params_, some it =>
    let params_ := params_.assign (key it.1) it.2
    includeSelfLoop key fuel params_ (params_.after it.1)

/-- Method `ParamSet::include` (lines 93-102), called with the registry itself as the argument
`other`, with a bound on the number of loop iterations: the result `none` means that the call
has not returned within that bound. -/
def ParamSet.includeSelf (fuel : Nat) (self : ParamSet) (pfx : StdString) : Option ParamSet :=
  let p := self.getParams
  if pfx.isEmpty then
    (includeSelfLoop (fun k => k) fuel self.params_ p.first).map (fun m => { params_ := m })
  else
    (includeSelfLoop (fun k => pfx ++ ".".toList ++ k) fuel self.params_ p.first).map
      (fun m => { params_ := m })

/-! ## Reference definitions for the contract -/

/-- The results of the individual calls `setParam(k, v)`, one for each entry of a list in
order, each call made in the state the preceding call left. -/
def setParamResults {σ : Type} (P : GenericParam σ) (self : ParamSet) (w : World σ) :
    List (StdString × StdString) → List Bool
  | [] => []
  | (k, v) :: rest =>
    let c := self.setParam P w k v
    c.result :: setParamResults P c.self c.world rest

/-- The registry and the world reached by calling `setParam(k, v)` once for each entry of a
list, in order. -/
def setParamEach {σ : Type} (P : GenericParam σ) (self : ParamSet) (w : World σ) :
    List (StdString × StdString) → ParamSet × World σ
  | [] => (self, w)
  | (k, v) :: rest =>
    let c := self.setParam P w k v
    setParamEach P c.self c.world rest

/-- The key under which `include(other, pfx)` files the key `k` of `other`: `k` itself when the
prefix is empty, `pfx + "." + k` otherwise. -/
def includedKey (pfx k : StdString) : StdString :=
  if pfx.isEmpty then k else pfx ++ ".".toList ++ k

/-- The characters `print` writes for one entry: the key, the three characters `" = "`, the
value and the line terminator. -/
def printedLine (key value : StdString) : StdString :=
  key ++ " = ".toList ++ value ++ "\n".toList

/-- One line for each entry of the registry, in storage iteration order, with the current
`getValue()` string of the entry's object. -/
def printedLines {σ : Type} (P : GenericParam σ) (R : ParamSet) (w : World σ) : List StdString :=
  R.params_.entries.map (fun it => printedLine it.1 (P.getValue (w.heap it.2)))

/-- The stream after `out << key << " = " << value << std::endl`. -/
def printRecord (out : OStream) (key value : StdString) : OStream :=
  (((out.insert key).insert " = ".toList).insert value).endl

/-- The operations of `ParamSet` other than `clear`, each with its arguments. -/
inductive Operation where
  /-- The call `setParam(key, value)`. -/
  | callSetParam (key value : StdString)
  /-- The call `setParams(kv)`. -/
  | callSetParams (kv : StdMap StdString)
  /-- The call `getParamNames(params)`. -/
  | callGetParamNames (params : List StdString)
  /-- The call `getParamValues(vals)`. -/
  | callGetParamValues (vals : List StdString)
  /-- The call `getParams()`. -/
  | callGetParams
  /-- The call `getParams(params)`. -/
  | callGetParamsOut (params : StdMap StdString)
  /-- The call `include(other, pfx)`. -/
  | callInclude (other : ParamSet) (pfx : StdString)
  /-- The call `print(out)`. -/
  | callPrint (out : OStream)

/-- The registry after an operation. The methods `getParamNames`, `getParamValues`, both
`getParams` and `print` are declared `const`: they cannot assign to `params_`, and the registry
after them is the registry before. -/
def Operation.registryAfter {σ : Type} (P : GenericParam σ) (R : ParamSet) (w : World σ) :
    Operation → ParamSet
  | .callSetParam key value => (R.setParam P w key value).self
  | .callSetParams kv => (R.setParams P w kv).self
  | .callInclude other pfx => R.include other pfx
  | .callGetParamNames _ => R
  | .callGetParamValues _ => R
  | .callGetParams => R
  | .callGetParamsOut _ => R
  | .callPrint _ => R

/-- The property of a parameter class that `setValue` writes to the object it is called on
only: every other object is afterwards in the state it was in. -/
def GenericParam.Local {σ : Type} (P : GenericParam σ) : Prop :=
  ∀ (p : GenericParamPtr) (h : GenericParamPtr → σ) (v : StdString) (q : GenericParamPtr),
    q ≠ p → (P.setValue p h v).2 q = h q

/-! ## A concrete parameter class and concrete registries -/

/-- A string-valued parameter that accepts the values of at most three characters and writes
to the object it is called on only. -/
def shortParam : GenericParam StdString where
  setValue := fun p h v => if v.length ≤ 3 then (true, Function.update h p v) else (false, h)
  getValue := fun s => s

/-- A world with the value `"0"` at every address and no diagnostics. -/
def world0 : World StdString := { heap := fun _ => "0".toList, log := [] }

/-- The registry `{"range" -> 1, "goal_bias" -> 2}`. -/
def regA : ParamSet :=
  { params_ := (StdMap.empty.assign "range".toList 1).assign "goal_bias".toList 2 }

/-- The registry `{"range" -> 3}`. -/
def regB : ParamSet := { params_ := StdMap.empty.assign "range".toList 3 }

/-- The registry `{"a" -> 1}`. -/
def regLoop : ParamSet := { params_ := StdMap.empty.assign "a".toList 1 }

/-- The registry `{"p.x" -> 2, "x" -> 1}`. -/
def regMix : ParamSet :=
  { params_ := (StdMap.empty.assign "x".toList 1).assign "p.x".toList 2 }

/-- The registry `{"p.p.x" -> 2, "p.x" -> 1, "x" -> 1}`. -/
def regMixAfter : ParamSet :=
  { params_ := ((StdMap.empty.assign "x".toList 1).assign "p.x".toList 1).assign
      "p.p.x".toList 2 }

/-- A world in which every object has a value of two lines. -/
def worldTwoLines : World StdString := { heap := fun _ => "a\nb".toList, log := [] }

/-- An empty stream in good state with no pending field width. -/
def plainOut : OStream :=
  { content := [], good := true, width := 0, fill := ' ', adjustLeft := false }

/-- An empty stream in good state with the pending field width 12. -/
def wideOut : OStream :=
  { content := [], good := true, width := 12, fill := ' ', adjustLeft := false }

/-- An output map that already holds the entry `"zz" -> "old"`. -/
def staleOut : StdMap StdString := StdMap.empty.assign "zz".toList "old".toList

/-- Parameters that are all backed by one shared variable: `setValue` on any of them stores
the value, and every object reads it afterwards. -/
def linkedParam : GenericParam StdString where
  setValue := fun _ _ v => (true, fun _ => v)
  getValue := fun s => s

/-- A parameter whose `setValue` reports success for every string and stores nothing. -/
def inertParam : GenericParam StdString where
  setValue := fun _ h _ => (true, h)
  getValue := fun s => s

/-! ## Facts about ordered maps -/

theorem findEntry_assignEntry {V : Type} (k : StdString) (v : V) (l : List (StdString × V))
    (k' : StdString) :
    findEntry (assignEntry k v l) k' = if k' = k then some v else findEntry l k' := by
  induction l with
  | nil =>
    show (if k = k' then some v else none) = _
    by_cases hk : k' = k
    · rw [if_pos hk, if_pos hk.symm]
    · rw [if_neg hk, if_neg (fun e => hk e.symm)]
      rfl
  | cons e t ih =>
    obtain ⟨k1, v1⟩ := e
    by_cases h1 : k < k1
    · rw [assignEntry, if_pos h1]
      show (if k = k' then some v else findEntry ((k1, v1) :: t) k') = _
      by_cases hk : k' = k
      · rw [if_pos hk, if_pos hk.symm]
      · rw [if_neg hk, if_neg (fun e => hk e.symm)]
    · by_cases h2 : k1 < k
      · rw [assignEntry, if_neg h1, if_pos h2]
        show (if k1 = k' then some v1 else findEntry (assignEntry k v t) k') =
          if k' = k then some v else (if k1 = k' then some v1 else findEntry t k')
        rw [ih]
        by_cases hk : k' = k
        · have hne : ¬ k1 = k' := fun e => by rw [e, hk] at h2; exact lt_irrefl _ h2
          rw [if_pos hk, if_neg hne, if_pos hk]
        · rw [if_neg hk, if_neg hk]
      · have hkk : k1 = k := le_antisymm (not_lt.mp h1) (not_lt.mp h2)
        rw [assignEntry, if_neg h1, if_neg h2]
        show (if k1 = k' then some v else findEntry t k') =
          if k' = k then some v else (if k1 = k' then some v1 else findEntry t k')
        by_cases hk : k' = k
        · rw [if_pos hk, if_pos (hkk.trans hk.symm)]
        · have hne : ¬ k1 = k' := fun e => hk (e.symm.trans hkk)
          rw [if_neg hk, if_neg hne, if_neg hne]

theorem mem_of_findEntry_eq_some {V : Type} (l : List (StdString × V)) (k : StdString) (v : V)
    (h : findEntry l k = some v) : (k, v) ∈ l := by
  induction l with
  | nil => simp [findEntry] at h
  | cons e t ih =>
    obtain ⟨k1, v1⟩ := e
    simp only [findEntry] at h
    split_ifs at h with h1
    · have hv : v1 = v := Option.some.inj h
      rw [h1, hv]
      exact List.mem_cons_self _ _
    · exact List.mem_cons_of_mem _ (ih h)

theorem findEntry_eq_some_of_mem {V : Type} (l : List (StdString × V)) (hl : Ordered l)
    (k : StdString) (v : V) (h : (k, v) ∈ l) : findEntry l k = some v := by
  induction l with
  | nil => simp at h
  | cons e t ih =>
    obtain ⟨k1, v1⟩ := e
    have hl' := List.pairwise_cons.mp hl
    rcases List.mem_cons.mp h with h1 | h1
    · have hk : k1 = k := (congrArg Prod.fst h1).symm
      have hv : v1 = v := (congrArg Prod.snd h1).symm
      simp [findEntry, hk, hv]
    · have hlt : k1 < k := hl'.1 (k, v) h1
      have hne : ¬ k1 = k := ne_of_lt hlt
      simp only [findEntry, hne, if_false]
      exact ih hl'.2 h1

theorem findEntry_isSome_iff {V : Type} (l : List (StdString × V)) (k : StdString) :
    (findEntry l k).isSome = true ↔ k ∈ l.map Prod.fst := by
  induction l with
  | nil => simp [findEntry]
  | cons e t ih =>
    obtain ⟨k1, v1⟩ := e
    by_cases h : k1 = k
    · subst h
      constructor
      · intro _
        exact List.mem_cons_self _ _
      · intro _
        show (if k1 = k1 then some v1 else findEntry t k1).isSome = true
        rw [if_pos rfl]
        rfl
    · have h' : ¬ k = k1 := fun e => h e.symm
      show (if k1 = k then some v1 else findEntry t k).isSome = true ↔ k ∈ k1 :: t.map Prod.fst
      rw [if_neg h, ih, List.mem_cons]
      exact ⟨Or.inr, fun hh => hh.resolve_left h'⟩

theorem findEntry_eq_none_iff {V : Type} (l : List (StdString × V)) (k : StdString) :
    findEntry l k = none ↔ k ∉ l.map Prod.fst := by
  rw [← findEntry_isSome_iff]
  cases findEntry l k <;> simp

theorem StdMap.find_assign {V : Type} (m : StdMap V) (k : StdString) (v : V) (k' : StdString) :
    (m.assign k v).find k' = if k' = k then some v else m.find k' :=
  findEntry_assignEntry k v m.entries k'

theorem StdMap.find_isSome_iff {V : Type} (m : StdMap V) (k : StdString) :
    (m.find k).isSome = true ↔ k ∈ m.keys :=
  findEntry_isSome_iff m.entries k

theorem StdMap.keys_sorted {V : Type} (m : StdMap V) : m.keys.Pairwise (· < ·) :=
  List.pairwise_map.mpr m.ordered

theorem StdMap.ext_entries {V : Type} (m₁ m₂ : StdMap V) (h : m₁.entries = m₂.entries) :
    m₁ = m₂ := by
  cases m₁; cases m₂; cases h; rfl

/-! ## setParam -/

/-- C1: for a key `k` that is not a key of the registry, `setParam(k, v)` returns `false`; the
registry afterwards is the registry before (same keys, same handle under each key) and the
state of every value object is the state before. -/
theorem setParam_absent_key {σ : Type} (P : GenericParam σ) (R : ParamSet) (w : World σ)
    (k v : StdString) (hk : R.params_.find k = none) :
    (R.setParam P w k v).result = false ∧
      (R.setParam P w k v).self = R ∧
      (R.setParam P w k v).world.heap = w.heap := by
  simp [ParamSet.setParam, hk]

theorem setParam_absent_key_witness :
    regA.params_.find "rang".toList = none ∧
      ((regA.setParam shortParam world0 "rang".toList "7".toList).result = false ∧
        (regA.setParam shortParam world0 "rang".toList "7".toList).self = regA ∧
        (regA.setParam shortParam world0 "rang".toList "7".toList).world.heap = world0.heap) :=
  ⟨by decide, setParam_absent_key shortParam regA world0 _ _ (by decide)⟩

/-- C2: for a key `k` under which the registry holds the object `p`, `setParam(k, v)` returns
the boolean that `setValue(v)` returns on that object, the objects (that object among them) are
afterwards in the state `setValue(v)` leaves them in, and the registry adds nothing of its own:
it stays as it was and reports no diagnostic. -/
theorem setParam_present_key {σ : Type} (P : GenericParam σ) (R : ParamSet) (w : World σ)
    (k v : StdString) (p : GenericParamPtr) (hk : R.params_.find k = some p) :
    (R.setParam P w k v).result = (P.setValue p w.heap v).1 ∧
      (R.setParam P w k v).world.heap = (P.setValue p w.heap v).2 ∧
      (R.setParam P w k v).world.heap p = (P.setValue p w.heap v).2 p ∧
      (R.setParam P w k v).self = R ∧
      (R.setParam P w k v).world.log = w.log := by
  simp [ParamSet.setParam, hk]

theorem setParam_present_key_witness :
    regA.params_.find "range".toList = some 1 ∧
      ((regA.setParam shortParam world0 "range".toList "2500".toList).result
          = (shortParam.setValue 1 world0.heap "2500".toList).1 ∧
        (regA.setParam shortParam world0 "range".toList "2500".toList).world.heap
          = (shortParam.setValue 1 world0.heap "2500".toList).2 ∧
        (regA.setParam shortParam world0 "range".toList "2500".toList).world.heap 1
          = (shortParam.setValue 1 world0.heap "2500".toList).2 1 ∧
        (regA.setParam shortParam world0 "range".toList "2500".toList).self = regA ∧
        (regA.setParam shortParam world0 "range".toList "2500".toList).world.log = world0.log) :=
  ⟨by decide, setParam_present_key shortParam regA world0 _ _ 1 (by decide)⟩

/-! ## getParamNames and getParamValues -/

theorem foldl_pushBack_keys {V : Type} (l : List (StdString × V)) (acc : List StdString) :
    l.foldl (fun acc it => pushBack acc it.1) acc = acc ++ l.map Prod.fst := by
  induction l generalizing acc with
  | nil => simp
  | cons e t ih =>
    rw [List.foldl_cons, ih]
    simp [pushBack]

theorem getParamNames_eq_stdSort_keys (R : ParamSet) (out : List StdString) :
    R.getParamNames out = stdSort R.params_.keys := by
  simp [ParamSet.getParamNames, vectorClear, foldl_pushBack_keys, StdMap.keys]

theorem stdSort_perm (v : List StdString) : (stdSort v).Perm v :=
  List.perm_insertionSort _ v

theorem stdSort_sorted (v : List StdString) : (stdSort v).Sorted (· ≤ ·) :=
  List.sorted_insertionSort _ v

theorem mem_getParamNames_iff (R : ParamSet) (out : List StdString) (k : StdString) :
    k ∈ R.getParamNames out ↔ (R.params_.find k).isSome = true := by
  rw [getParamNames_eq_stdSort_keys, (stdSort_perm _).mem_iff, StdMap.find_isSome_iff]

theorem take_succ_set {α : Type} (l : List α) (i : Nat) (x : α) (h : i < l.length) :
    (l.set i x).take (i + 1) = l.take i ++ [x] := by
  induction l generalizing i with
  | nil => simp at h
  | cons a t ih =>
    cases i with
    | zero => simp
    | succ j =>
      have hj : j < t.length := by simpa using h
      simp [ih j hj]

theorem length_vectorResize (v : List StdString) (n : Nat) : (vectorResize v n).length = n := by
  simp only [vectorResize, List.length_append, List.length_take, List.length_replicate]
  omega

theorem readValue_of_find {σ : Type} (P : GenericParam σ) (R : ParamSet) (w : World σ)
    (k : StdString) (p : GenericParamPtr) (hp : R.params_.find k = some p) :
    R.readValue P w k = some (P.getValue (w.heap p)) := by
  simp [ParamSet.readValue, ParamSet.getParams, hp]

theorem getParamValuesLoop_eq {σ : Type} (P : GenericParam σ) (R : ParamSet) (w : World σ)
    (names : List StdString) (hn : ∀ n ∈ names, (R.params_.find n).isSome = true)
    (i : Nat) (vals : List StdString) (hlen : i + names.length ≤ vals.length) :
    ParamSet.getParamValuesLoop P R w names i vals
      = some (vals.take i ++ names.map (fun n => (R.readValue P w n).getD [])
          ++ vals.drop (i + names.length)) := by
  induction names generalizing i vals with
  | nil => simp [ParamSet.getParamValuesLoop]
  | cons name rest ih =>
    have hfound := hn name (List.mem_cons_self _ _)
    obtain ⟨p, hp⟩ := Option.isSome_iff_exists.mp hfound
    have hlen' : i + 1 + rest.length ≤ (vals.set i (P.getValue (w.heap p))).length := by
      simp only [List.length_set, List.length_cons] at hlen ⊢
      omega
    have hi : i < vals.length := by
      simp only [List.length_cons] at hlen
      omega
    have hval : (R.readValue P w name).getD [] = P.getValue (w.heap p) := by
      rw [readValue_of_find P R w name p hp]
      rfl
    simp only [ParamSet.getParamValuesLoop, hp]
    rw [ih (fun n hmem => hn n (List.mem_cons_of_mem _ hmem)) (i + 1) _ hlen',
      take_succ_set vals i _ hi, List.drop_set_of_lt _ _ (by omega : i < i + 1 + rest.length)]
    simp only [List.map_cons, List.length_cons, hval, List.append_assoc, List.singleton_append]
    congr 4
    omega

theorem getParamValues_eq_map {σ : Type} (P : GenericParam σ) (R : ParamSet) (w : World σ)
    (out : List StdString) :
    R.getParamValues P w out
      = some ((R.getParamNames []).map (fun n => (R.readValue P w n).getD [])) := by
  have hn : ∀ n ∈ R.getParamNames [], (R.params_.find n).isSome = true :=
    fun n hmem => (mem_getParamNames_iff R [] n).mp hmem
  have hlen : 0 + (R.getParamNames []).length
      ≤ (vectorResize out (R.getParamNames []).length).length := by
    rw [length_vectorResize]
    omega
  simp only [ParamSet.getParamValues]
  rw [getParamValuesLoop_eq P R w _ hn 0 _ hlen]
  have hdrop : (vectorResize out (R.getParamNames []).length).drop
      (0 + (R.getParamNames []).length) = [] := by
    apply List.drop_eq_nil_of_le
    rw [length_vectorResize]
    omega
  rw [hdrop]
  simp

/-- C3: whatever the output vector held before, `getParamNames` leaves in it a sequence that is
sorted in ascending order, has no duplicates, has exactly the keys of the registry as elements and
as many elements as the registry has entries; the previous content plays no part. -/
theorem getParamNames_sorted_nodup_keys (R : ParamSet) (out : List StdString) :
    (R.getParamNames out).Sorted (· ≤ ·) ∧
      (R.getParamNames out).Nodup ∧
      (∀ k, k ∈ R.getParamNames out ↔ (R.params_.find k).isSome = true) ∧
      (R.getParamNames out).length = R.params_.size ∧
      R.getParamNames out = R.getParamNames [] := by
  refine ⟨?_, ?_, mem_getParamNames_iff R out, ?_, ?_⟩
  · rw [getParamNames_eq_stdSort_keys]
    exact stdSort_sorted _
  · rw [getParamNames_eq_stdSort_keys, (stdSort_perm _).nodup_iff]
    exact (StdMap.keys_sorted R.params_).imp (fun h => ne_of_lt h)
  · rw [getParamNames_eq_stdSort_keys, (stdSort_perm _).length_eq]
    simp [StdMap.keys, StdMap.size]
  · rw [getParamNames_eq_stdSort_keys, getParamNames_eq_stdSort_keys]

/-- C4: whatever the two output vectors held before, `getParamValues` returns a sequence as
long as the one of `getParamNames`, and at every index `i` its element is `getValue()` of the
object the registry holds under the `i`-th name of `getParamNames`. -/
theorem getParamValues_aligned {σ : Type} (P : GenericParam σ) (R : ParamSet) (w : World σ)
    (out prior : List StdString) :
    ∃ vals, R.getParamValues P w out = some vals ∧
      vals.length = (R.getParamNames prior).length ∧
      ∀ (i : Nat) (name : StdString), (R.getParamNames prior)[i]? = some name →
        ∃ p, R.params_.find name = some p ∧ vals[i]? = some (P.getValue (w.heap p)) := by
  have hprior : R.getParamNames prior = R.getParamNames [] := by
    rw [getParamNames_eq_stdSort_keys, getParamNames_eq_stdSort_keys]
  rw [hprior]
  refine ⟨_, getParamValues_eq_map P R w out, by simp, ?_⟩
  intro i name hname
  have hmem : name ∈ R.getParamNames [] := by
    obtain ⟨hi, hget⟩ := List.getElem?_eq_some.mp hname
    rw [← hget]
    exact List.getElem_mem hi
  obtain ⟨p, hp⟩ := Option.isSome_iff_exists.mp ((mem_getParamNames_iff R [] name).mp hmem)
  refine ⟨p, hp, ?_⟩
  rw [List.getElem?_map, hname, Option.map_some', readValue_of_find P R w name p hp]
  rfl

/-! ## setParams -/

theorem setParam_self {σ : Type} (P : GenericParam σ) (R : ParamSet) (w : World σ)
    (k v : StdString) : (R.setParam P w k v).self = R := by
  unfold ParamSet.setParam
  split <;> rfl

theorem setParam_result_of_absent {σ : Type} (P : GenericParam σ) (R : ParamSet) (w : World σ)
    (k v : StdString) (hk : R.params_.find k = none) : (R.setParam P w k v).result = false := by
  simp [ParamSet.setParam, hk]

theorem setParamsLoop_result {σ : Type} (P : GenericParam σ) (l : List (StdString × StdString))
    (b : Bool) (R : ParamSet) (w : World σ) :
    (ParamSet.setParamsLoop P l b R w).result = (b && (setParamResults P R w l).all id) := by
  induction l generalizing b R w with
  | nil => simp [ParamSet.setParamsLoop, setParamResults]
  | cons e t ih =>
    obtain ⟨k, v⟩ := e
    simp only [ParamSet.setParamsLoop, setParamResults, ih, List.all_cons, id, Bool.and_assoc]

theorem setParamsLoop_state {σ : Type} (P : GenericParam σ) (l : List (StdString × StdString))
    (b : Bool) (R : ParamSet) (w : World σ) :
    ((ParamSet.setParamsLoop P l b R w).self, (ParamSet.setParamsLoop P l b R w).world)
      = setParamEach P R w l := by
  induction l generalizing b R w with
  | nil => simp [ParamSet.setParamsLoop, setParamEach]
  | cons e t ih =>
    obtain ⟨k, v⟩ := e
    simp only [ParamSet.setParamsLoop, setParamEach, ih]

theorem setParamResults_present {σ : Type} (P : GenericParam σ) (R : ParamSet)
    (l : List (StdString × StdString)) (w : World σ)
    (h : ∀ r ∈ setParamResults P R w l, r = true) :
    ∀ e ∈ l, (R.params_.find e.1).isSome = true := by
  induction l generalizing w with
  | nil => intro e he; simp at he
  | cons e t ih =>
    obtain ⟨k, v⟩ := e
    simp only [setParamResults, List.mem_cons, forall_eq_or_imp] at h
    rw [setParam_self] at h
    intro e' he'
    rcases List.mem_cons.mp he' with rfl | hmem
    · cases hfind : R.params_.find k with
      | none =>
        rw [setParam_result_of_absent P R w k v hfind] at h
        exact absurd h.1 (by simp)
      | some p => rfl
    · exact ih _ h.2 e' hmem

/-- C5: `setParams(kv)` returns the conjunction of the results of the individual `setParam`
calls made for the entries of `kv`; it returns `true` exactly when every key of `kv` is a key of
the registry and every individual call returned `true`; for the empty mapping it returns
`true`. -/
theorem setParams_result_and {σ : Type} (P : GenericParam σ) (R : ParamSet) (w : World σ)
    (kv : StdMap StdString) :
    (R.setParams P w kv).result = (setParamResults P R w kv.entries).all id ∧
      ((R.setParams P w kv).result = true ↔
        (∀ e ∈ kv.entries, (R.params_.find e.1).isSome = true) ∧
          ∀ r ∈ setParamResults P R w kv.entries, r = true) ∧
      (R.setParams P w StdMap.empty).result = true := by
  have hres : (R.setParams P w kv).result = (setParamResults P R w kv.entries).all id := by
    simp [ParamSet.setParams, setParamsLoop_result]
  refine ⟨hres, ?_, ?_⟩
  · rw [hres, List.all_eq_true]
    constructor
    · intro h
      have h' : ∀ r ∈ setParamResults P R w kv.entries, r = true := fun r hr => h r hr
      exact ⟨setParamResults_present P R kv.entries w h', h'⟩
    · intro h r hr
      exact h.2 r hr
  · simp [ParamSet.setParams, StdMap.empty, ParamSet.setParamsLoop]

/-- C6: `setParams` does not stop at a failure: the registry and the value objects after
`setParams(kv)` are those reached by calling `setParam` once for every entry of `kv`, in order.
In particular, when `k1` is a key of the registry holding the object `p1` and `k2` is not a key,
`setParams({k1:v1, k2:v2})` returns `false` and the objects (`p1` among them) are in the state
the call `setValue(v1)` on `p1` leaves them in, whether `k1` comes before `k2` in the mapping or
after it. -/
theorem setParams_no_short_circuit {σ : Type} (P : GenericParam σ) (R : ParamSet) (w : World σ) :
    (∀ kv : StdMap StdString,
        ((R.setParams P w kv).self, (R.setParams P w kv).world) = setParamEach P R w kv.entries) ∧
      (∀ (k1 v1 k2 v2 : StdString) (p1 : GenericParamPtr),
        R.params_.find k1 = some p1 → R.params_.find k2 = none →
          (R.setParams P w ((StdMap.empty.assign k1 v1).assign k2 v2)).result = false ∧
            (R.setParams P w ((StdMap.empty.assign k1 v1).assign k2 v2)).world.heap
              = (P.setValue p1 w.heap v1).2 ∧
            (R.setParams P w ((StdMap.empty.assign k1 v1).assign k2 v2)).world.heap p1
              = (P.setValue p1 w.heap v1).2 p1) := by
  refine ⟨fun kv => setParamsLoop_state P kv.entries true R w, ?_⟩
  intro k1 v1 k2 v2 p1 h1 h2
  have hne : k1 ≠ k2 := by
    intro e
    rw [e, h2] at h1
    exact absurd h1 (by simp)
  rcases lt_or_gt_of_ne hne with hlt | hgt
  · have hnlt : ¬ k2 < k1 := not_lt.mpr hlt.le
    simp [ParamSet.setParams, StdMap.assign, StdMap.empty, assignEntry, hlt, hnlt,
      ParamSet.setParamsLoop, ParamSet.setParam, h1, h2]
  · simp [ParamSet.setParams, StdMap.assign, StdMap.empty, assignEntry, hgt,
      ParamSet.setParamsLoop, ParamSet.setParam, h1, h2]

theorem setParams_no_short_circuit_witness :
    (regA.params_.find "range".toList = some 1 ∧ regA.params_.find "zeta".toList = none ∧
      regA.params_.find "alpha".toList = none) ∧
      ((regA.setParams shortParam world0
            ((StdMap.empty.assign "range".toList "12".toList).assign "zeta".toList
              "5".toList)).result = false ∧
        (regA.setParams shortParam world0
            ((StdMap.empty.assign "range".toList "12".toList).assign "zeta".toList
              "5".toList)).world.heap 1 = (shortParam.setValue 1 world0.heap "12".toList).2 1) ∧
      ((regA.setParams shortParam world0
            ((StdMap.empty.assign "range".toList "12".toList).assign "alpha".toList
              "5".toList)).result = false ∧
        (regA.setParams shortParam world0
            ((StdMap.empty.assign "range".toList "12".toList).assign "alpha".toList
              "5".toList)).world.heap 1 = (shortParam.setValue 1 world0.heap "12".toList).2 1) :=
  ⟨⟨by decide, by decide, by decide⟩,
    ⟨((setParams_no_short_circuit shortParam regA world0).2 _ _ _ _ 1 (by decide)
        (by decide)).1,
      ((setParams_no_short_circuit shortParam regA world0).2 _ _ _ _ 1 (by decide)
        (by decide)).2.2⟩,
    ⟨((setParams_no_short_circuit shortParam regA world0).2 _ _ _ _ 1 (by decide)
        (by decide)).1,
      ((setParams_no_short_circuit shortParam regA world0).2 _ _ _ _ 1 (by decide)
        (by decide)).2.2⟩⟩

/-! ## include -/

theorem find_foldl_assign_of_forall_ne {V W : Type} (f : StdString → StdString) (g : V → W)
    (l : List (StdString × V)) (m : StdMap W) (k : StdString) (h : ∀ e ∈ l, f e.1 ≠ k) :
    (l.foldl (fun acc it => acc.assign (f it.1) (g it.2)) m).find k = m.find k := by
  induction l generalizing m with
  | nil => rfl
  | cons e t ih =>
    rw [List.foldl_cons, ih _ (fun e' he' => h e' (List.mem_cons_of_mem _ he')),
      StdMap.find_assign, if_neg (fun hk => h e (List.mem_cons_self _ _) hk.symm)]

theorem find_foldl_assign_of_mem {V W : Type} (f : StdString → StdString)
    (hf : Function.Injective f) (g : V → W) (l : List (StdString × V)) (hl : Ordered l)
    (m : StdMap W) (k : StdString) (v : V) (h : (k, v) ∈ l) :
    (l.foldl (fun acc it => acc.assign (f it.1) (g it.2)) m).find (f k) = some (g v) := by
  induction l generalizing m with
  | nil => simp at h
  | cons e t ih =>
    have hl' := List.pairwise_cons.mp hl
    rw [List.foldl_cons]
    rcases List.mem_cons.mp h with he | hmem
    · have hrest : ∀ e' ∈ t, f e'.1 ≠ f k := by
        intro e' he' hfe
        have hlt : e.1 < e'.1 := hl'.1 e' he'
        rw [hf hfe, ← he] at hlt
        exact lt_irrefl _ hlt
      rw [find_foldl_assign_of_forall_ne f g t _ (f k) hrest, StdMap.find_assign, ← he]
      simp
    · exact ih hl'.2 _ hmem

theorem find_foldl_assign_isSome {V W : Type} (f : StdString → StdString) (g : V → W)
    (l : List (StdString × V)) (m : StdMap W) (k : StdString)
    (h : ((l.foldl (fun acc it => acc.assign (f it.1) (g it.2)) m).find k).isSome = true) :
    (m.find k).isSome = true ∨ ∃ e ∈ l, k = f e.1 := by
  by_cases hex : ∃ e ∈ l, k = f e.1
  · exact Or.inr hex
  · left
    have hne : ∀ e ∈ l, f e.1 ≠ k := fun e he hk => hex ⟨e, he, hk.symm⟩
    rw [find_foldl_assign_of_forall_ne f g l m k hne] at h
    exact h

theorem prefixed_injective (p : StdString) :
    Function.Injective (fun k : StdString => p ++ ".".toList ++ k) :=
  fun _ _ h => List.append_cancel_left h

theorem StdMap.mem_entries_of_find {V : Type} (m : StdMap V) (k : StdString) (v : V)
    (h : m.find k = some v) : (k, v) ∈ m.entries :=
  mem_of_findEntry_eq_some m.entries k v h

theorem StdMap.find_of_mem_entries {V : Type} (m : StdMap V) (e : StdString × V)
    (h : e ∈ m.entries) : m.find e.1 = some e.2 :=
  findEntry_eq_some_of_mem m.entries m.ordered e.1 e.2 h

theorem include_params_empty (R other : ParamSet) :
    (R.include other []).params_
      = other.params_.entries.foldl (fun acc it => acc.assign (id it.1) (id it.2)) R.params_ :=
  rfl

theorem include_params_prefixed (R other : ParamSet) (p : StdString) (hp : p ≠ []) :
    (R.include other p).params_
      = other.params_.entries.foldl
          (fun acc it => acc.assign ((fun k => p ++ ".".toList ++ k) it.1) (id it.2))
          R.params_ := by
  have hne : p.isEmpty = false := by
    cases p with
    | nil => exact absurd rfl hp
    | cons c t => rfl
  simp [ParamSet.include, ParamSet.getParams, hne]

theorem include_find_includedKey (R other : ParamSet) (p k : StdString) (h : GenericParamPtr)
    (hk : other.params_.find k = some h) :
    (R.include other p).params_.find (includedKey p k) = some h := by
  have hmem := StdMap.mem_entries_of_find other.params_ k h hk
  by_cases hp : p = []
  · subst hp
    rw [include_params_empty]
    exact find_foldl_assign_of_mem id (fun _ _ e => e) id _ other.params_.ordered _ k h hmem
  · have hne : p.isEmpty = false := by
      cases p with
      | nil => exact absurd rfl hp
      | cons c t => rfl
    rw [include_params_prefixed R other p hp]
    simp only [includedKey, hne]
    exact find_foldl_assign_of_mem (fun k => p ++ ".".toList ++ k) (prefixed_injective p) id _
      other.params_.ordered _ k h hmem

/-- For a non-empty prefix `p` and a registry `other` that is another object than `R`, after
`R.include(other, p)` every key `k` of `other` is found in `R` under `p + "." + k` with the
handle `other` holds under `k`; distinct keys `k` give distinct prefixed keys; and every key of
`R` after the call was a key of `R` before or is `p + "." + k` for a key `k` of `other`. -/
theorem include_prefixed {R other : ParamSet} {p : StdString} (hp : p ≠ []) :
    (∀ (k : StdString) (h : GenericParamPtr), other.params_.find k = some h →
        (R.include other p).params_.find (p ++ ".".toList ++ k) = some h) ∧
      (∀ k1 k2 : StdString, k1 ≠ k2 → p ++ ".".toList ++ k1 ≠ p ++ ".".toList ++ k2) ∧
      (∀ k' : StdString, ((R.include other p).params_.find k').isSome = true →
        (R.params_.find k').isSome = true ∨
          ∃ k, (other.params_.find k).isSome = true ∧ k' = p ++ ".".toList ++ k) := by
  have hne : p.isEmpty = false := by
    cases p with
    | nil => exact absurd rfl hp
    | cons c t => rfl
  refine ⟨?_, ?_, ?_⟩
  · intro k h hk
    have := include_find_includedKey R other p k h hk
    simpa only [includedKey, hne] using this
  · intro k1 k2 h12 he
    exact h12 (prefixed_injective p he)
  · intro k' hk'
    rw [include_params_prefixed R other p hp] at hk'
    rcases find_foldl_assign_isSome _ _ _ _ _ hk' with h | ⟨e, he, hke⟩
    · exact Or.inl h
    · refine Or.inr ⟨e.1, ?_, hke⟩
      rw [StdMap.find_of_mem_entries other.params_ e he]
      rfl

/-- C8: after `R.include(other, "")` every key `k` of `other` is a key of `R` bound to the handle
`other` holds under `k`, whether or not `R` had an entry under `k` before; under every key that
is not a key of `other`, `R` holds what it held before (its handle, or nothing). -/
theorem include_unprefixed (R other : ParamSet) :
    (∀ (k : StdString) (h : GenericParamPtr), other.params_.find k = some h →
        (R.include other []).params_.find k = some h) ∧
      (∀ k : StdString, other.params_.find k = none →
        (R.include other []).params_.find k = R.params_.find k) := by
  refine ⟨?_, ?_⟩
  · intro k h hk
    exact include_find_includedKey R other [] k h hk
  · intro k hk
    rw [include_params_empty]
    apply find_foldl_assign_of_forall_ne
    intro e he hek
    have := StdMap.find_of_mem_entries other.params_ e he
    rw [show e.1 = k from hek, hk] at this
    exact absurd this (by simp)

theorem include_unprefixed_witness :
    (regB.params_.find "range".toList = some 3 ∧ regA.params_.find "range".toList = some 1) ∧
      (regA.include regB []).params_.find "range".toList = some 3 :=
  ⟨⟨by decide, by decide⟩, (include_unprefixed regA regB).1 _ _ (by decide)⟩

theorem setParam_result_of_find {σ : Type} (P : GenericParam σ) (R : ParamSet) (w : World σ)
    (k v : StdString) (p : GenericParamPtr) (hk : R.params_.find k = some p) :
    (R.setParam P w k v).result = (P.setValue p w.heap v).1 := by
  simp [ParamSet.setParam, hk]

theorem setParam_heap_of_find {σ : Type} (P : GenericParam σ) (R : ParamSet) (w : World σ)
    (k v : StdString) (p : GenericParamPtr) (hk : R.params_.find k = some p) :
    (R.setParam P w k v).world.heap = (P.setValue p w.heap v).2 := by
  simp [ParamSet.setParam, hk]

/-- When `A` holds the object `a` under `k` and `B` is another object than `A`, then after
`B.include(A, p)` the registry `B` holds the same object `a` under the included key (`k` for an
empty prefix, `p + "." + k` otherwise). Hence after `A.setParam(k, v)` the value read through
`B` under the included key is the value read through `A` under `k`, namely `getValue()` of the
object in the state `setValue(v)` left it in; and the same holds after a `setParam` made
through `B` under the included key, which also returns the same boolean. -/
theorem include_shares_objects {σ : Type} (P : GenericParam σ) (A B : ParamSet) (w : World σ)
    (p k v : StdString) (a : GenericParamPtr) (hk : A.params_.find k = some a) :
    (B.include A p).params_.find (includedKey p k) = some a ∧
      ((B.include A p).readValue P (A.setParam P w k v).world (includedKey p k)
          = A.readValue P (A.setParam P w k v).world k ∧
        A.readValue P (A.setParam P w k v).world k
          = some (P.getValue ((P.setValue a w.heap v).2 a))) ∧
      (A.readValue P ((B.include A p).setParam P w (includedKey p k) v).world k
          = (B.include A p).readValue P ((B.include A p).setParam P w (includedKey p k) v).world
              (includedKey p k) ∧
        A.readValue P ((B.include A p).setParam P w (includedKey p k) v).world k
          = some (P.getValue ((P.setValue a w.heap v).2 a))) ∧
      ((B.include A p).setParam P w (includedKey p k) v).result = (A.setParam P w k v).result := by
  have hB := include_find_includedKey B A p k a hk
  have hA1 := setParam_heap_of_find P A w k v a hk
  have hB1 := setParam_heap_of_find P (B.include A p) w (includedKey p k) v a hB
  refine ⟨hB, ⟨?_, ?_⟩, ⟨?_, ?_⟩, ?_⟩
  · rw [readValue_of_find P _ _ _ a hB, readValue_of_find P _ _ _ a hk]
  · rw [readValue_of_find P _ _ _ a hk, hA1]
  · rw [readValue_of_find P _ _ _ a hB, readValue_of_find P _ _ _ a hk]
  · rw [readValue_of_find P _ _ _ a hk, hB1]
  · rw [setParam_result_of_find P (B.include A p) w (includedKey p k) v a hB,
      setParam_result_of_find P A w k v a hk]

/-! ## getParams -/

/-- C10 as stated fails: the output map is not emptied, so a key it held before the call and
that is not a key of the registry is still a key afterwards. With the registry
`{"range" -> 3}` and the prior content `{"zz" -> "old"}` the result has the keys `"range"` and
`"zz"`. -/
theorem getParamsOut_keeps_stale_key :
    (regB.getParamsOut shortParam world0 staleOut).keys = ["range".toList, "zz".toList] ∧
      regB.params_.keys = ["range".toList] ∧
      ¬ (∀ k : StdString, ((regB.getParamsOut shortParam world0 staleOut).find k).isSome
          = (regB.params_.find k).isSome) := by
  refine ⟨by decide, by decide, ?_⟩
  intro h
  exact absurd (h "zz".toList) (by decide)

/-- C10, amended: `getParams(out)` maps every key of the registry to the current `getValue()`
string of its value object and leaves the output map as it was under every key that is not a
key of the registry; when the output map is empty before the call, the key set of the result is
exactly the key set of the registry. -/
theorem getParamsOut_snapshot {σ : Type} (P : GenericParam σ) (R : ParamSet) (w : World σ)
    (out : StdMap StdString) :
    (∀ (k : StdString) (p : GenericParamPtr), R.params_.find k = some p →
        (R.getParamsOut P w out).find k = some (P.getValue (w.heap p))) ∧
      (∀ k : StdString, R.params_.find k = none →
        (R.getParamsOut P w out).find k = out.find k) ∧
      (∀ k : StdString, ((R.getParamsOut P w StdMap.empty).find k).isSome
        = (R.params_.find k).isSome) := by
  have hsome : ∀ (o : StdMap StdString) (k : StdString) (p : GenericParamPtr),
      R.params_.find k = some p → (R.getParamsOut P w o).find k = some (P.getValue (w.heap p)) :=
    fun o k p hk => find_foldl_assign_of_mem id (fun _ _ e => e) (fun q => P.getValue (w.heap q))
      R.params_.entries R.params_.ordered o k p (StdMap.mem_entries_of_find R.params_ k p hk)
  have hnone : ∀ (o : StdMap StdString) (k : StdString),
      R.params_.find k = none → (R.getParamsOut P w o).find k = o.find k := by
    intro o k hk
    apply find_foldl_assign_of_forall_ne id (fun q => P.getValue (w.heap q))
    intro e he hek
    have := StdMap.find_of_mem_entries R.params_ e he
    rw [show e.1 = k from hek, hk] at this
    exact absurd this (by simp)
  refine ⟨hsome out, hnone out, ?_⟩
  intro k
  cases hk : R.params_.find k with
  | none =>
    rw [hnone _ k hk]
    rfl
  | some p =>
    rw [hsome _ k p hk]
    rfl

theorem getParamsOut_snapshot_witness :
    (regB.params_.find "range".toList = some 3 ∧ regB.params_.find "zz".toList = none) ∧
      (regB.getParamsOut shortParam world0 staleOut).find "range".toList = some "0".toList ∧
      (regB.getParamsOut shortParam world0 staleOut).find "zz".toList = some "old".toList := by
  have h := getParamsOut_snapshot shortParam regB world0 staleOut
  exact ⟨⟨by decide, by decide⟩, h.1 _ 3 (by decide),
    (h.2.1 _ (by decide)).trans (by decide)⟩

/-! ## clear -/

theorem getParamNames_clear (R : ParamSet) (out : List StdString) :
    R.clear.getParamNames out = [] := by
  rw [getParamNames_eq_stdSort_keys]
  rfl

/-- C11: after `clear()` the registry has no entries, and `getParamNames` and `getParamValues`
return the empty sequence whatever the output vectors held. `clear` acts on `params_` alone and
the objects are in the state they were in: a registry `B` that took over the entries of `R`
before reads, under the included key, the value `R` read under `k`, while `R` itself no longer
has the key. -/
theorem clear_removes_all {σ : Type} (P : GenericParam σ) (R : ParamSet) (w : World σ)
    (out : List StdString) :
    R.clear.params_.entries = [] ∧
      R.clear.params_.size = 0 ∧
      (∀ k : StdString, R.clear.params_.find k = none) ∧
      R.clear.getParamNames out = [] ∧
      R.clear.getParamValues P w out = some [] ∧
      (∀ (B : ParamSet) (p k : StdString) (a : GenericParamPtr), R.params_.find k = some a →
        (B.include R p).readValue P w (includedKey p k) = R.readValue P w k ∧
          R.clear.readValue P w k = none) := by
  refine ⟨rfl, rfl, fun _ => rfl, getParamNames_clear R out, ?_, ?_⟩
  · rw [getParamValues_eq_map, getParamNames_clear]
    rfl
  · intro B p k a hk
    refine ⟨?_, rfl⟩
    rw [readValue_of_find P _ w _ a (include_find_includedKey B R p k a hk),
      readValue_of_find P R w k a hk]

theorem clear_removes_all_witness :
    regA.params_.find "range".toList = some 1 ∧
      (regB.include regA "ns".toList).readValue shortParam world0 "ns.range".toList
        = regA.readValue shortParam world0 "range".toList ∧
      regA.clear.readValue shortParam world0 "range".toList = none ∧
      regA.clear.getParamNames ["stale".toList] = [] :=
  ⟨by decide,
    ((clear_removes_all shortParam regA world0 []).2.2.2.2.2 regB "ns".toList "range".toList 1
      (by decide)).1,
    ((clear_removes_all shortParam regA world0 []).2.2.2.2.2 regB "ns".toList "range".toList 1
      (by decide)).2,
    (clear_removes_all shortParam regA world0 ["stale".toList]).2.2.2.1⟩

/-! ## Frame of setParam and setParams -/

theorem setParam_heap_of_absent {σ : Type} (P : GenericParam σ) (R : ParamSet) (w : World σ)
    (k v : StdString) (hk : R.params_.find k = none) :
    (R.setParam P w k v).world.heap = w.heap := by
  simp [ParamSet.setParam, hk]

theorem setParam_heap_frame {σ : Type} (P : GenericParam σ) (hP : P.Local) (R : ParamSet)
    (w : World σ) (k v : StdString) (q : GenericParamPtr) (hq : R.params_.find k ≠ some q) :
    (R.setParam P w k v).world.heap q = w.heap q := by
  cases hk : R.params_.find k with
  | none => rw [setParam_heap_of_absent P R w k v hk]
  | some p =>
    have hne : q ≠ p := fun e => hq (by rw [hk, e])
    rw [setParam_heap_of_find P R w k v p hk]
    exact hP p w.heap v q hne

theorem setParamsLoop_self {σ : Type} (P : GenericParam σ) (l : List (StdString × StdString))
    (b : Bool) (R : ParamSet) (w : World σ) : (ParamSet.setParamsLoop P l b R w).self = R := by
  induction l generalizing b w with
  | nil => rfl
  | cons e t ih =>
    obtain ⟨k, v⟩ := e
    simp only [ParamSet.setParamsLoop, setParam_self, ih]

theorem setParamsLoop_heap_of_absent {σ : Type} (P : GenericParam σ)
    (l : List (StdString × StdString)) (b : Bool) (R : ParamSet) (w : World σ)
    (hl : ∀ e ∈ l, R.params_.find e.1 = none) :
    (ParamSet.setParamsLoop P l b R w).world.heap = w.heap := by
  induction l generalizing b w with
  | nil => rfl
  | cons e t ih =>
    obtain ⟨k, v⟩ := e
    simp only [ParamSet.setParamsLoop, setParam_self]
    rw [ih _ _ (fun e' he' => hl e' (List.mem_cons_of_mem _ he'))]
    exact setParam_heap_of_absent P R w k v (hl (k, v) (List.mem_cons_self _ _))

theorem setParamsLoop_heap_frame {σ : Type} (P : GenericParam σ) (hP : P.Local)
    (l : List (StdString × StdString)) (b : Bool) (R : ParamSet) (w : World σ)
    (q : GenericParamPtr) (hq : ∀ e ∈ l, R.params_.find e.1 ≠ some q) :
    (ParamSet.setParamsLoop P l b R w).world.heap q = w.heap q := by
  induction l generalizing b w with
  | nil => rfl
  | cons e t ih =>
    obtain ⟨k, v⟩ := e
    simp only [ParamSet.setParamsLoop, setParam_self]
    rw [ih _ _ (fun e' he' => hq e' (List.mem_cons_of_mem _ he'))]
    exact setParam_heap_frame P hP R w k v q (hq (k, v) (List.mem_cons_self _ _))

theorem shortParam_local : shortParam.Local := by
  intro p h v q hq
  show (if v.length ≤ 3 then (true, Function.update h p v) else (false, h)).2 q = h q
  split
  · exact Function.update_noteq hq v h
  · rfl

/-- C12 as stated fails: `setValue` is a virtual call that may write to other objects than the
one it is called on. With parameters backed by one shared variable, `setParam("range", "42")` on
the registry `{"range" -> 1, "goal_bias" -> 2}` changes the object `2`, which is held under a key
that was not set and is not the targeted object `1`. -/
theorem setParam_changes_other_object :
    regA.params_.find "range".toList = some 1 ∧
      regA.params_.find "goal_bias".toList = some 2 ∧
      world0.heap 2 = "0".toList ∧
      (regA.setParam linkedParam world0 "range".toList "42".toList).world.heap 2 = "42".toList ∧
      ¬ (∀ q : GenericParamPtr, regA.params_.find "range".toList ≠ some q →
          (regA.setParam linkedParam world0 "range".toList "42".toList).world.heap q
            = world0.heap q) := by
  refine ⟨by decide, by decide, by decide, by decide, ?_⟩
  intro h
  exact absurd (h 2 (by decide)) (by decide)

/-- C12, amended: `setParam(k, v)` and `setParams(kv)` leave the registry as it was (same keys,
same handle under each key), and the registry writes to no object itself: after `setParam` the
objects are in the state the call `setValue(v)` on the object under `k` leaves them in, and in
the state they were in when `k` is absent; after `setParams` they are in the state they were in
when no key of `kv` is present. When `setValue` writes to the object it is called on only, an
object that is not held under a key that is set is in the state it was in. -/
theorem set_writes_through_setValue_only {σ : Type} (P : GenericParam σ) (R : ParamSet)
    (w : World σ) (k v : StdString) (kv : StdMap StdString) :
    (R.setParam P w k v).self = R ∧
      (R.setParams P w kv).self = R ∧
      (∀ p : GenericParamPtr, R.params_.find k = some p →
        (R.setParam P w k v).world.heap = (P.setValue p w.heap v).2) ∧
      (R.params_.find k = none → (R.setParam P w k v).world.heap = w.heap) ∧
      ((∀ e ∈ kv.entries, R.params_.find e.1 = none) →
        (R.setParams P w kv).world.heap = w.heap) ∧
      (P.Local →
        (∀ q : GenericParamPtr, R.params_.find k ≠ some q →
          (R.setParam P w k v).world.heap q = w.heap q) ∧
        (∀ q : GenericParamPtr, (∀ e ∈ kv.entries, R.params_.find e.1 ≠ some q) →
          (R.setParams P w kv).world.heap q = w.heap q)) :=
  ⟨setParam_self P R w k v,
    setParamsLoop_self P kv.entries true R w,
    fun p hp => setParam_heap_of_find P R w k v p hp,
    fun hk => setParam_heap_of_absent P R w k v hk,
    fun hl => setParamsLoop_heap_of_absent P kv.entries true R w hl,
    fun hP => ⟨fun q hq => setParam_heap_frame P hP R w k v q hq,
      fun q hq => setParamsLoop_heap_frame P hP kv.entries true R w q hq⟩⟩

theorem set_writes_through_setValue_only_witness :
    (regA.params_.find "range".toList = some 1 ∧ regA.params_.find "range".toList ≠ some 2) ∧
      (regA.setParam linkedParam world0 "range".toList "42".toList).world.heap
        = (linkedParam.setValue 1 world0.heap "42".toList).2 ∧
      (regA.setParam shortParam world0 "range".toList "42".toList).self = regA ∧
      (regA.setParam shortParam world0 "range".toList "42".toList).world.heap 2 = world0.heap 2 :=
  ⟨⟨by decide, by decide⟩,
    (set_writes_through_setValue_only linkedParam regA world0 "range".toList "42".toList
      StdMap.empty).2.2.1 1 (by decide),
    (set_writes_through_setValue_only shortParam regA world0 "range".toList "42".toList
      StdMap.empty).1,
    ((set_writes_through_setValue_only shortParam regA world0 "range".toList "42".toList
      StdMap.empty).2.2.2.2.2 shortParam_local).1 2 (by decide)⟩

/-! ## The value read after setParam -/

/-- C14 as stated fails: whether the value read reflects the new value is up to the value
object, and a `setValue` may report success without taking the value. With such a parameter,
`setParam("range", "42")` returns `true` and the value read for `"range"` afterwards is still
`"0"`. -/
theorem setParam_true_value_not_taken :
    regA.params_.find "range".toList = some 1 ∧
      regA.readValue inertParam world0 "range".toList = some "0".toList ∧
      (regA.setParam inertParam world0 "range".toList "42".toList).result = true ∧
      regA.readValue inertParam
          (regA.setParam inertParam world0 "range".toList "42".toList).world "range".toList
        = some "0".toList ∧
      ¬ (regA.readValue inertParam
            (regA.setParam inertParam world0 "range".toList "42".toList).world "range".toList
          = some "42".toList
        ↔ (regA.setParam inertParam world0 "range".toList "42".toList).result = true) := by
  refine ⟨by decide, by decide, by decide, by decide, ?_⟩
  intro h
  exact absurd (h.mpr (by decide)) (by decide)

/-- C14, amended: for a key `k` under which the registry holds the object `p`, `setParam(k, v)`
returns the boolean that `setValue(v)` returns on `p`, and the value read for `k` afterwards is
`getValue()` of `p` in the state that call left it in. Hence the value read is `v` exactly when
`setParam` returned `true` if and only if `setValue` and `getValue` of the value object are so
related: the registry relays both and adds nothing. -/
theorem setParam_relays_flag_and_value {σ : Type} (P : GenericParam σ) (R : ParamSet)
    (w : World σ) (k v : StdString) (p : GenericParamPtr) (hk : R.params_.find k = some p) :
    (R.setParam P w k v).result = (P.setValue p w.heap v).1 ∧
      R.readValue P (R.setParam P w k v).world k
        = some (P.getValue ((P.setValue p w.heap v).2 p)) ∧
      ((R.readValue P (R.setParam P w k v).world k = some v
          ↔ (R.setParam P w k v).result = true)
        ↔ (P.getValue ((P.setValue p w.heap v).2 p) = v
            ↔ (P.setValue p w.heap v).1 = true)) := by
  have hres := setParam_result_of_find P R w k v p hk
  have hread : R.readValue P (R.setParam P w k v).world k
      = some (P.getValue ((P.setValue p w.heap v).2 p)) := by
    rw [readValue_of_find P R _ k p hk, setParam_heap_of_find P R w k v p hk]
  refine ⟨hres, hread, ?_⟩
  rw [hres, hread]
  simp

theorem setParam_relays_flag_and_value_witness :
    regA.params_.find "range".toList = some 1 ∧
      (regA.setParam shortParam world0 "range".toList "42".toList).result = true ∧
      regA.readValue shortParam
          (regA.setParam shortParam world0 "range".toList "42".toList).world "range".toList
        = some "42".toList := by
  have h := setParam_relays_flag_and_value shortParam regA world0 "range".toList "42".toList 1
    (by decide)
  exact ⟨by decide, h.1.trans (by decide), h.2.1.trans (by decide)⟩

/-! ## Entries are removed by clear only -/

theorem find_foldl_assign_isSome_of_isSome {V W : Type} (f : StdString → StdString) (g : V → W)
    (l : List (StdString × V)) (m : StdMap W) (k : StdString)
    (h : (m.find k).isSome = true) :
    ((l.foldl (fun acc it => acc.assign (f it.1) (g it.2)) m).find k).isSome = true := by
  induction l generalizing m with
  | nil => exact h
  | cons e t ih =>
    rw [List.foldl_cons]
    apply ih
    rw [StdMap.find_assign]
    by_cases hk : k = f e.1
    · rw [if_pos hk]
      rfl
    · rw [if_neg hk]
      exact h

theorem include_keeps_keys (R other : ParamSet) (p k : StdString)
    (h : (R.params_.find k).isSome = true) :
    ((R.include other p).params_.find k).isSome = true := by
  by_cases hp : p = []
  · subst hp
    rw [include_params_empty]
    exact find_foldl_assign_isSome_of_isSome _ _ _ _ _ h
  · rw [include_params_prefixed R other p hp]
    exact find_foldl_assign_isSome_of_isSome _ _ _ _ _ h

/-- C13: a key that is present before one of the operations `setParam`, `setParams`,
`getParamNames`, `getParamValues`, `getParams` (both variants), `include` and `print` is present
after it; after `clear` it is absent. -/
theorem keys_removed_by_clear_only {σ : Type} (P : GenericParam σ) (R : ParamSet) (w : World σ)
    (op : Operation) (k : StdString) (hk : (R.params_.find k).isSome = true) :
    ((op.registryAfter P R w).params_.find k).isSome = true ∧
      (R.clear.params_.find k).isSome = false := by
  refine ⟨?_, rfl⟩
  cases op with
  | callSetParam key value =>
    show (((R.setParam P w key value).self).params_.find k).isSome = true
    rw [setParam_self]
    exact hk
  | callSetParams kv =>
    show (((R.setParams P w kv).self).params_.find k).isSome = true
    rw [ParamSet.setParams, setParamsLoop_self]
    exact hk
  | callInclude other pfx => exact include_keeps_keys R other pfx k hk
  | callGetParamNames _ => exact hk
  | callGetParamValues _ => exact hk
  | callGetParams => exact hk
  | callGetParamsOut _ => exact hk
  | callPrint _ => exact hk

theorem keys_removed_by_clear_only_witness :
    (regA.params_.find "range".toList).isSome = true ∧
      (((Operation.callInclude regB []).registryAfter shortParam regA world0).params_.find
          "range".toList).isSome = true ∧
      (regA.clear.params_.find "range".toList).isSome = false :=
  ⟨by decide,
    keys_removed_by_clear_only shortParam regA world0 (Operation.callInclude regB [])
      "range".toList (by decide)⟩

/-! ## print -/

theorem print_eq_foldl_printRecord {σ : Type} (P : GenericParam σ) (R : ParamSet) (w : World σ)
    (out : OStream) :
    R.print P w out
      = R.params_.entries.foldl (fun o it => printRecord o it.1 (P.getValue (w.heap it.2))) out :=
  rfl

theorem printRecord_plain (out : OStream) (hg : out.good = true) (hw : out.width = 0)
    (key value : StdString) :
    printRecord out key value = { out with content := out.content ++ printedLine key value } := by
  obtain ⟨c, g, wd, f, a⟩ := out
  simp only at hg hw
  subst hg hw
  simp [printRecord, OStream.insert, OStream.endl, printedLine]

theorem printRecord_not_good (out : OStream) (hg : out.good = false) (key value : StdString) :
    printRecord out key value = out := by
  simp [printRecord, OStream.insert, OStream.endl, hg]

theorem foldl_printRecord_plain {σ : Type} (P : GenericParam σ) (w : World σ)
    (l : List (StdString × GenericParamPtr)) (out : OStream) (hg : out.good = true)
    (hw : out.width = 0) :
    l.foldl (fun o it => printRecord o it.1 (P.getValue (w.heap it.2))) out
      = { out with
          content := out.content
            ++ (l.map (fun it => printedLine it.1 (P.getValue (w.heap it.2)))).flatten } := by
  induction l generalizing out with
  | nil => simp
  | cons e t ih =>
    rw [List.foldl_cons, printRecord_plain out hg hw,
      ih { out with content := out.content ++ printedLine e.1 (P.getValue (w.heap e.2)) } hg hw]
    simp [List.append_assoc]

theorem foldl_printRecord_not_good {σ : Type} (P : GenericParam σ) (w : World σ)
    (l : List (StdString × GenericParamPtr)) (out : OStream) (hg : out.good = false) :
    l.foldl (fun o it => printRecord o it.1 (P.getValue (w.heap it.2))) out = out := by
  induction l with
  | nil => rfl
  | cons e t ih => rw [List.foldl_cons, printRecord_not_good out hg, ih]

theorem print_plain {σ : Type} (P : GenericParam σ) (R : ParamSet) (w : World σ)
    (out : OStream) (hg : out.good = true) (hw : out.width = 0) :
    R.print P w out = { out with content := out.content ++ (printedLines P R w).flatten } :=
  foldl_printRecord_plain P w R.params_.entries out hg hw

theorem count_newline_printedLine (key value : StdString)
    (hkey : Char.ofNat 10 ∉ key) (hvalue : Char.ofNat 10 ∉ value) :
    (printedLine key value).count (Char.ofNat 10) = 1 := by
  have h1 : key.count (Char.ofNat 10) = 0 := List.count_eq_zero.mpr hkey
  have h2 : value.count (Char.ofNat 10) = 0 := List.count_eq_zero.mpr hvalue
  have h3 : (" = ".toList).count (Char.ofNat 10) = 0 := by decide
  have h4 : ("\n".toList).count (Char.ofNat 10) = 1 := by decide
  simp only [printedLine, List.count_append, h1, h2, h3, h4]

theorem count_newline_lines {σ : Type} (P : GenericParam σ) (w : World σ)
    (l : List (StdString × GenericParamPtr))
    (h : ∀ e ∈ l, Char.ofNat 10 ∉ e.1 ∧ Char.ofNat 10 ∉ P.getValue (w.heap e.2)) :
    ((l.map (fun it => printedLine it.1 (P.getValue (w.heap it.2)))).flatten).count
        (Char.ofNat 10) = l.length := by
  induction l with
  | nil => rfl
  | cons e t ih =>
    have he := h e (List.mem_cons_self _ _)
    rw [List.map_cons, List.flatten_cons, List.count_append,
      count_newline_printedLine _ _ he.1 he.2,
      ih (fun e' he' => h e' (List.mem_cons_of_mem _ he')), List.length_cons]
    omega

/-- C15 as stated fails in two ways. The insertion of the key honours a pending field width:
on a stream with the width 12 the registry `{"range" -> 3}` is printed as `"       range = 0"`
and a newline, which is not the concatenation of key, `" = "`, value and terminator. And a value
may hold a line terminator itself: with the value `"a\nb"` the one entry is printed on two
lines. -/
theorem print_padded_or_more_lines :
    (regB.print shortParam world0 wideOut).content = "       range = 0\n".toList ∧
      (printedLines shortParam regB world0).flatten = "range = 0\n".toList ∧
      (regB.print shortParam worldTwoLines plainOut).content = "range = a\nb\n".toList ∧
      ((regB.print shortParam worldTwoLines plainOut).content).count (Char.ofNat 10) = 2 ∧
      regB.params_.size = 1 := by
  decide

/-- C15, amended: on a stream in good state with no pending field width, `print` appends
exactly one line per entry and nothing else: the concatenation, over the entries in storage
iteration order, of the key, `" = "`, the current `getValue()` string of the entry's object and
the line terminator, and leaves the rest of the stream as it was; on a stream that is not in
good state it writes nothing. There is one such line for each entry, and when no key and no
value holds a line terminator the text written has as many line terminators as the registry
has entries. The registry after `print` is the registry before. -/
theorem print_one_line_per_entry {σ : Type} (P : GenericParam σ) (R : ParamSet) (w : World σ)
    (out : OStream) :
    (out.good = true → out.width = 0 →
        R.print P w out = { out with content := out.content ++ (printedLines P R w).flatten }) ∧
      (out.good = false → R.print P w out = out) ∧
      (printedLines P R w).length = R.params_.size ∧
      (∀ (i : Nat) (e : StdString × GenericParamPtr), R.params_.entries[i]? = some e →
        (printedLines P R w)[i]?
          = some (e.1 ++ " = ".toList ++ P.getValue (w.heap e.2) ++ "\n".toList)) ∧
      ((∀ e ∈ R.params_.entries,
          Char.ofNat 10 ∉ e.1 ∧ Char.ofNat 10 ∉ P.getValue (w.heap e.2)) →
        ((printedLines P R w).flatten).count (Char.ofNat 10) = R.params_.size) ∧
      (Operation.callPrint out).registryAfter P R w = R := by
  refine ⟨print_plain P R w out, ?_, ?_, ?_, ?_, rfl⟩
  · intro hg
    exact foldl_printRecord_not_good P w R.params_.entries out hg
  · simp [printedLines, StdMap.size]
  · intro i e he
    simp [printedLines, List.getElem?_map, he, printedLine]
  · intro h
    exact count_newline_lines P w R.params_.entries h

theorem print_one_line_per_entry_witness :
    (plainOut.good = true ∧ plainOut.width = 0 ∧
      ∀ e ∈ regA.params_.entries,
        Char.ofNat 10 ∉ e.1 ∧ Char.ofNat 10 ∉ shortParam.getValue (world0.heap e.2)) ∧
      ((printedLines shortParam regA world0).flatten).count (Char.ofNat 10)
        = regA.params_.size ∧
      (regA.print shortParam world0 plainOut).content
        = "goal_bias = 0\nrange = 0\n".toList := by
  have h := print_one_line_per_entry shortParam regA world0 plainOut
  exact ⟨⟨by decide, by decide, by decide⟩, h.2.2.2.2.1 (by decide),
    (congrArg OStream.content (h.1 (by decide) (by decide))).trans (by decide)⟩

/-! ## print and the sorted accessors -/

theorem stdSort_keys_eq {V : Type} (m : StdMap V) : stdSort m.keys = m.keys :=
  List.Sorted.insertionSort_eq ((StdMap.keys_sorted m).imp (fun h => le_of_lt h))

theorem getParamNames_eq_keys (R : ParamSet) (out : List StdString) :
    R.getParamNames out = R.params_.keys := by
  rw [getParamNames_eq_stdSort_keys, stdSort_keys_eq]

theorem getParamValues_eq_entries {σ : Type} (P : GenericParam σ) (R : ParamSet) (w : World σ)
    (out : List StdString) :
    R.getParamValues P w out
      = some (R.params_.entries.map (fun it => P.getValue (w.heap it.2))) := by
  rw [getParamValues_eq_map, getParamNames_eq_keys, StdMap.keys, List.map_map]
  congr 1
  apply List.map_congr_left
  intro e he
  show (R.readValue P w e.1).getD [] = P.getValue (w.heap e.2)
  rw [readValue_of_find P R w e.1 e.2 (StdMap.find_of_mem_entries R.params_ e he)]
  rfl

theorem zip_map_same {α β γ : Type} (g : α → β) (h : α → γ) (l : List α) :
    List.zip (l.map g) (l.map h) = l.map (fun a => (g a, h a)) := by
  induction l with
  | nil => rfl
  | cons a t ih => simp [ih]

theorem zipWith_map_same {α β γ δ : Type} (f : β → γ → δ) (g : α → β) (h : α → γ)
    (l : List α) : List.zipWith f (l.map g) (l.map h) = l.map (fun a => f (g a) (h a)) := by
  induction l with
  | nil => rfl
  | cons a t ih => simp [ih]

/-- C16: `print` lists the parameters in the order of `getParamNames`: the map is iterated in
ascending key order, so the sort in `getParamNames` leaves the collected keys as they are, and
the `i`-th line printed is made of the `i`-th name of `getParamNames` and the `i`-th value of
`getParamValues`, whatever the state of the stream; on a stream in good state with no pending
field width the text written is the sequence of these lines. -/
theorem print_in_getParamNames_order {σ : Type} (P : GenericParam σ) (R : ParamSet)
    (w : World σ) (names vals : List StdString) (out : OStream) :
    stdSort R.params_.keys = R.params_.keys ∧
      R.getParamNames names = R.params_.keys ∧
      ∃ values, R.getParamValues P w vals = some values ∧
        values.length = (R.getParamNames names).length ∧
        printedLines P R w = List.zipWith printedLine (R.getParamNames names) values ∧
        R.print P w out
          = (List.zip (R.getParamNames names) values).foldl
              (fun o nv => printRecord o nv.1 nv.2) out ∧
        (out.good = true → out.width = 0 →
          R.print P w out
            = { out with
                content := out.content
                  ++ (List.zipWith printedLine (R.getParamNames names) values).flatten }) := by
  have hlines : printedLines P R w
      = List.zipWith printedLine (R.getParamNames names)
          (R.params_.entries.map (fun it => P.getValue (w.heap it.2))) := by
    rw [getParamNames_eq_keys, StdMap.keys, zipWith_map_same]
    rfl
  refine ⟨stdSort_keys_eq R.params_, getParamNames_eq_keys R names, _,
    getParamValues_eq_entries P R w vals, ?_, hlines, ?_, ?_⟩
  · rw [getParamNames_eq_keys]
    simp [StdMap.keys]
  · rw [getParamNames_eq_keys, StdMap.keys, zip_map_same, List.foldl_map]
    rfl
  · intro hg hw
    rw [← hlines]
    exact print_plain P R w out hg hw

/-- C17: every name returned by `getParamNames` is a key of the registry, so each lookup
`params_.find(names[i])` made by `getParamValues` finds an entry, and `getParamValues` returns
a result. -/
theorem getParamValues_lookups_succeed {σ : Type} (P : GenericParam σ) (R : ParamSet)
    (w : World σ) (vals : List StdString) :
    (∀ (i : Nat) (name : StdString), (R.getParamNames [])[i]? = some name →
        (R.params_.find name).isSome = true) ∧
      (R.getParamValues P w vals).isSome = true := by
  constructor
  · intro i name hname
    obtain ⟨hi, hget⟩ := List.getElem?_eq_some.mp hname
    apply (mem_getParamNames_iff R [] name).mp
    rw [← hget]
    exact List.getElem_mem hi
  · rw [getParamValues_eq_map]
    rfl

theorem getParamValues_lookups_succeed_witness :
    (regA.getParamNames [])[1]? = some "range".toList ∧
      (regA.params_.find "range".toList).isSome = true :=
  ⟨by decide,
    (getParamValues_lookups_succeed shortParam regA world0 []).1 1 "range".toList (by decide)⟩

/-! ## include is idempotent -/

theorem findEntry_ext {V : Type} (l₁ l₂ : List (StdString × V)) (h₁ : Ordered l₁)
    (h₂ : Ordered l₂) (h : ∀ k, findEntry l₁ k = findEntry l₂ k) : l₁ = l₂ := by
  induction l₁ generalizing l₂ with
  | nil =>
    cases l₂ with
    | nil => rfl
    | cons e t =>
      have := h e.1
      rw [findEntry_eq_some_of_mem _ h₂ e.1 e.2 (List.mem_cons_self _ _)] at this
      exact absurd this (by simp [findEntry])
  | cons e₁ t₁ ih =>
    cases l₂ with
    | nil =>
      have := h e₁.1
      rw [findEntry_eq_some_of_mem _ h₁ e₁.1 e₁.2 (List.mem_cons_self _ _)] at this
      exact absurd this (by simp [findEntry])
    | cons e₂ t₂ =>
      have ho₁ := List.pairwise_cons.mp h₁
      have ho₂ := List.pairwise_cons.mp h₂
      have hf₁ : findEntry (e₁ :: t₁) e₁.1 = some e₁.2 :=
        findEntry_eq_some_of_mem _ h₁ e₁.1 e₁.2 (List.mem_cons_self _ _)
      have hf₂ : findEntry (e₂ :: t₂) e₂.1 = some e₂.2 :=
        findEntry_eq_some_of_mem _ h₂ e₂.1 e₂.2 (List.mem_cons_self _ _)
      have hm₁ : (e₁.1, e₁.2) ∈ e₂ :: t₂ :=
        mem_of_findEntry_eq_some _ _ _ ((h e₁.1).symm.trans hf₁)
      have hm₂ : (e₂.1, e₂.2) ∈ e₁ :: t₁ :=
        mem_of_findEntry_eq_some _ _ _ ((h e₂.1).trans hf₂)
      have hle₁ : e₂.1 ≤ e₁.1 := by
        rcases List.mem_cons.mp hm₁ with heq | hmem
        · exact le_of_eq (congrArg Prod.fst heq).symm
        · exact le_of_lt (ho₂.1 _ hmem)
      have hle₂ : e₁.1 ≤ e₂.1 := by
        rcases List.mem_cons.mp hm₂ with heq | hmem
        · exact le_of_eq (congrArg Prod.fst heq).symm
        · exact le_of_lt (ho₁.1 _ hmem)
      have hkey : e₁.1 = e₂.1 := le_antisymm hle₂ hle₁
      have hval : e₁.2 = e₂.2 := by
        have := (h e₁.1).symm.trans hf₁
        rw [hkey, hf₂] at this
        exact (Option.some.inj this).symm
      have he : e₁ = e₂ := Prod.ext hkey hval
      have htail : ∀ k, findEntry t₁ k = findEntry t₂ k := by
        intro k
        by_cases hk : e₁.1 = k
        · have hn₁ : findEntry t₁ k = none := by
            rw [findEntry_eq_none_iff]
            intro hmem
            obtain ⟨x, hx, hxk⟩ := List.mem_map.mp hmem
            have := ho₁.1 x hx
            rw [hxk, hk] at this
            exact lt_irrefl _ this
          have hn₂ : findEntry t₂ k = none := by
            rw [findEntry_eq_none_iff]
            intro hmem
            obtain ⟨x, hx, hxk⟩ := List.mem_map.mp hmem
            have := ho₂.1 x hx
            rw [hxk, ← hkey, hk] at this
            exact lt_irrefl _ this
          rw [hn₁, hn₂]
        · have hk₂ : ¬ e₂.1 = k := fun e => hk (hkey.trans e)
          have := h k
          obtain ⟨k₁, v₁⟩ := e₁
          obtain ⟨k₂, v₂⟩ := e₂
          simp only [findEntry] at this
          rw [if_neg hk, if_neg hk₂] at this
          exact this
      rw [he, ih t₂ ho₁.2 ho₂.2 htail]

theorem StdMap.ext_find {V : Type} (m₁ m₂ : StdMap V) (h : ∀ k, m₁.find k = m₂.find k) :
    m₁ = m₂ :=
  StdMap.ext_entries m₁ m₂ (findEntry_ext _ _ m₁.ordered m₂.ordered h)

theorem include_params_includedKey (R other : ParamSet) (p : StdString) :
    (R.include other p).params_
      = other.params_.entries.foldl
          (fun acc it => acc.assign (includedKey p it.1) (id it.2)) R.params_ := by
  cases p with
  | nil => rfl
  | cons c t => rfl

/-- C18: `include` is idempotent: for a registry `other` that the calls leave as it is and any
prefix, calling `R.include(other, p)` a second time leaves `R` exactly as the first call left
it, with the same keys and the same handles. -/
theorem include_idempotent (R other : ParamSet) (p : StdString) :
    (R.include other p).include other p = R.include other p ∧
      ∀ k : StdString, ((R.include other p).include other p).params_.find k
        = (R.include other p).params_.find k := by
  have hfind : ∀ k : StdString, ((R.include other p).include other p).params_.find k
      = (R.include other p).params_.find k := by
    intro k
    by_cases hex : ∃ e ∈ other.params_.entries, includedKey p e.1 = k
    · obtain ⟨e, he, hek⟩ := hex
      have hfe := StdMap.find_of_mem_entries other.params_ e he
      rw [← hek, include_find_includedKey _ other p e.1 e.2 hfe,
        include_find_includedKey R other p e.1 e.2 hfe]
    · rw [include_params_includedKey (R.include other p) other p]
      exact find_foldl_assign_of_forall_ne _ _ _ _ _ (fun e he hek => hex ⟨e, he, hek⟩)
  refine ⟨?_, hfind⟩
  have hmap := StdMap.ext_find _ _ hfind
  cases h1 : (R.include other p).include other p with
  | mk m1 =>
    cases h2 : R.include other p with
    | mk m2 =>
      rw [h1, h2] at hmap
      exact congrArg ParamSet.mk hmap

/-! ## include with the registry itself as argument -/

theorem after_least {V : Type} (l : List (StdString × V)) (hl : Ordered l) (k d : StdString)
    (hd : d ∈ l.map Prod.fst) (hkd : k < d) :
    ∃ e, l.find? (fun e => decide (k < e.1)) = some e ∧ k < e.1 ∧ e.1 ≤ d := by
  induction l with
  | nil => simp at hd
  | cons x t ih =>
    have hl' := List.pairwise_cons.mp hl
    by_cases hx : k < x.1
    · refine ⟨x, by simp [List.find?_cons, hx], hx, ?_⟩
      rcases List.mem_cons.mp hd with h | h
      · exact le_of_eq h.symm
      · obtain ⟨y, hy, hyd⟩ := List.mem_map.mp h
        rw [← hyd]
        exact le_of_lt (hl'.1 y hy)
    · have hdt : d ∈ t.map Prod.fst := by
        rcases List.mem_cons.mp hd with h | h
        · rw [h] at hkd
          exact absurd hkd hx
        · exact h
      obtain ⟨e, he, hke, hed⟩ := ih hl'.2 hdt
      exact ⟨e, by simp [List.find?_cons, hx, he], hke, hed⟩

theorem includeSelfLoop_of_end (key : StdString → StdString) (fuel : Nat)
    (m : StdMap GenericParamPtr) : includeSelfLoop key fuel m none = some m := by
  cases fuel <;> rfl

theorem includeSelfLoop_eq_none (key : StdString → StdString)
    (hkey : ∀ k, k < key k → key k < key (key k)) (fuel : Nat) :
    ∀ (m : StdMap GenericParamPtr) (k : StdString) (v : GenericParamPtr),
      (∃ d, (m.find d).isSome = true ∧ k ≤ d ∧ d < key d) →
        includeSelfLoop key fuel m (some (k, v)) = none := by
  induction fuel with
  | zero => intro m k v _; rfl
  | succ n ih =>
    intro m k v hd
    obtain ⟨d, hdm, hkd, hdd⟩ := hd
    show includeSelfLoop key n (m.assign (key k) v) ((m.assign (key k) v).after k) = none
    have hstep : ∃ d', ((m.assign (key k) v).find d').isSome = true ∧ k < d' ∧
        d' < key d' := by
      rcases eq_or_lt_of_le hkd with heq | hlt
      · refine ⟨key k, ?_, ?_, ?_⟩
        · rw [StdMap.find_assign, if_pos rfl]
          rfl
        · rw [heq]
          exact hdd
        · rw [heq]
          exact hkey d hdd
      · refine ⟨d, ?_, hlt, hdd⟩
        rw [StdMap.find_assign]
        split
        · rfl
        · exact hdm
    obtain ⟨d', hd'm, hkd', hd'd'⟩ := hstep
    obtain ⟨e, he, _, hed⟩ := after_least (m.assign (key k) v).entries
      (m.assign (key k) v).ordered k d' ((StdMap.find_isSome_iff _ _).mp hd'm) hkd'
    have hafter : (m.assign (key k) v).after k = some (e.1, e.2) := he
    rw [hafter]
    exact ih _ e.1 e.2 ⟨d', hd'm, hed, hd'd'⟩

theorem assignEntry_below {V : Type} (k' : StdString) (v' : V) (pre : List (StdString × V))
    (k : StdString) (v : V) (rest : List (StdString × V)) (h : k' < k) :
    assignEntry k' v' (pre ++ (k, v) :: rest) = assignEntry k' v' pre ++ (k, v) :: rest := by
  induction pre with
  | nil =>
    show assignEntry k' v' ((k, v) :: rest) = [(k', v')] ++ (k, v) :: rest
    rw [assignEntry, if_pos h]
    rfl
  | cons x t ih =>
    obtain ⟨a, b⟩ := x
    show assignEntry k' v' ((a, b) :: (t ++ (k, v) :: rest))
      = assignEntry k' v' ((a, b) :: t) ++ (k, v) :: rest
    by_cases h1 : k' < a
    · rw [assignEntry, if_pos h1, assignEntry, if_pos h1]
      rfl
    · by_cases h2 : a < k'
      · rw [assignEntry, if_neg h1, if_pos h2, ih, assignEntry, if_neg h1, if_pos h2]
        rfl
      · rw [assignEntry, if_neg h1, if_neg h2, assignEntry, if_neg h1, if_neg h2]
        rfl

theorem assignEntry_same {V : Type} (pre : List (StdString × V)) (k : StdString) (v : V)
    (rest : List (StdString × V)) (hpre : ∀ e ∈ pre, e.1 < k) :
    assignEntry k v (pre ++ (k, v) :: rest) = pre ++ (k, v) :: rest := by
  induction pre with
  | nil =>
    show assignEntry k v ((k, v) :: rest) = (k, v) :: rest
    rw [assignEntry, if_neg (lt_irrefl k), if_neg (lt_irrefl k)]
  | cons x t ih =>
    obtain ⟨a, b⟩ := x
    have ha : a < k := hpre (a, b) (List.mem_cons_self _ _)
    show assignEntry k v ((a, b) :: (t ++ (k, v) :: rest)) = (a, b) :: (t ++ (k, v) :: rest)
    rw [assignEntry, if_neg (not_lt.mpr ha.le), if_pos ha,
      ih (fun e he => hpre e (List.mem_cons_of_mem _ he))]

theorem ordered_split {V : Type} (pre : List (StdString × V)) (k : StdString) (v : V)
    (rest : List (StdString × V)) (h : Ordered (pre ++ (k, v) :: rest)) :
    (∀ e ∈ pre, e.1 < k) ∧ (∀ e ∈ rest, k < e.1) := by
  have h' := List.pairwise_append.mp h
  refine ⟨fun e he => h'.2.2 e he (k, v) (List.mem_cons_self _ _), ?_⟩
  exact fun e he => (List.pairwise_cons.mp h'.2.1).1 e he

theorem find?_after_position {V : Type} (pre : List (StdString × V)) (k : StdString) (v : V)
    (rest : List (StdString × V)) (hpre : ∀ e ∈ pre, e.1 < k)
    (hrest : ∀ e ∈ rest, k < e.1) :
    (pre ++ (k, v) :: rest).find? (fun e => decide (k < e.1)) = rest.head? := by
  have hnone : pre.find? (fun e => decide (k < e.1)) = none := by
    rw [List.find?_eq_none]
    intro e he
    simpa using le_of_lt (hpre e he)
  rw [List.find?_append, hnone]
  cases rest with
  | nil => simp [List.find?_cons]
  | cons y t =>
    have hy : k < y.1 := hrest y (List.mem_cons_self _ _)
    simp [List.find?_cons, hy]

theorem includeSelfLoop_step (key : StdString → StdString) (m : StdMap GenericParamPtr)
    (pre : List (StdString × GenericParamPtr)) (k : StdString) (v : GenericParamPtr)
    (rest : List (StdString × GenericParamPtr)) (hm : m.entries = pre ++ (k, v) :: rest)
    (hk : key k ≤ k) :
    (∃ pre', (m.assign (key k) v).entries = pre' ++ (k, v) :: rest) ∧
      (m.assign (key k) v).after k = rest.head? := by
  have hord : Ordered (pre ++ (k, v) :: rest) := hm ▸ m.ordered
  have hsplit := ordered_split pre k v rest hord
  have hex : ∃ pre', (m.assign (key k) v).entries = pre' ++ (k, v) :: rest := by
    rcases eq_or_lt_of_le hk with heq | hlt
    · refine ⟨pre, ?_⟩
      show assignEntry (key k) v m.entries = pre ++ (k, v) :: rest
      rw [hm, heq]
      exact assignEntry_same pre k v rest hsplit.1
    · refine ⟨assignEntry (key k) v pre, ?_⟩
      show assignEntry (key k) v m.entries = assignEntry (key k) v pre ++ (k, v) :: rest
      rw [hm]
      exact assignEntry_below (key k) v pre k v rest hlt
  refine ⟨hex, ?_⟩
  obtain ⟨pre', hpre'⟩ := hex
  have hord' : Ordered (pre' ++ (k, v) :: rest) := hpre' ▸ (m.assign (key k) v).ordered
  have hsplit' := ordered_split pre' k v rest hord'
  show (m.assign (key k) v).entries.find? (fun e => decide (k < e.1)) = rest.head?
  rw [hpre']
  exact find?_after_position pre' k v rest hsplit'.1 hsplit'.2

theorem includeSelfLoop_eq_foldl (key : StdString → StdString)
    (hkey : ∀ k, k < key k → key k < key (key k)) (fuel : Nat) :
    ∀ (m : StdMap GenericParamPtr) (pre : List (StdString × GenericParamPtr)) (k : StdString)
      (v : GenericParamPtr) (rest : List (StdString × GenericParamPtr))
      (m' : StdMap GenericParamPtr),
      m.entries = pre ++ (k, v) :: rest →
        includeSelfLoop key fuel m (some (k, v)) = some m' →
          m' = ((k, v) :: rest).foldl (fun acc it => acc.assign (key it.1) it.2) m := by
  induction fuel with
  | zero =>
    intro m pre k v rest m' _ h
    exact absurd h (by simp [includeSelfLoop])
  | succ n ih =>
    intro m pre k v rest m' hm h
    by_cases hk : k < key k
    · have hmem : (m.find k).isSome = true := by
        rw [StdMap.find_isSome_iff, StdMap.keys, hm]
        simp
      rw [includeSelfLoop_eq_none key hkey (n + 1) m k v ⟨k, hmem, le_refl k, hk⟩] at h
      exact absurd h (by simp)
    · obtain ⟨⟨pre', hpre'⟩, hafter⟩ :=
        includeSelfLoop_step key m pre k v rest hm (not_lt.mp hk)
      have h' : includeSelfLoop key n (m.assign (key k) v) ((m.assign (key k) v).after k)
          = some m' := h
      rw [hafter] at h'
      cases rest with
      | nil =>
        rw [List.head?_nil, includeSelfLoop_of_end] at h'
        rw [← Option.some.inj h']
        rfl
      | cons y t =>
        obtain ⟨k2, v2⟩ := y
        rw [List.head?_cons] at h'
        have hentries : (m.assign (key k) v).entries = (pre' ++ [(k, v)]) ++ (k2, v2) :: t := by
          rw [hpre']
          simp
        rw [ih _ _ k2 v2 t m' hentries h']
        rfl

theorem includeSelfLoop_id_returns (rest : List (StdString × GenericParamPtr)) :
    ∀ (m : StdMap GenericParamPtr) (pre : List (StdString × GenericParamPtr)) (k : StdString)
      (v : GenericParamPtr), m.entries = pre ++ (k, v) :: rest →
        includeSelfLoop (fun k => k) (rest.length + 1) m (some (k, v)) = some m := by
  induction rest with
  | nil =>
    intro m pre k v hm
    obtain ⟨⟨pre', hpre'⟩, hafter⟩ :=
      includeSelfLoop_step (fun k => k) m pre k v [] hm (le_refl k)
    have hsame : m.assign k v = m := by
      apply StdMap.ext_entries
      show assignEntry k v m.entries = m.entries
      rw [hm]
      exact assignEntry_same pre k v [] (ordered_split pre k v [] (hm ▸ m.ordered)).1
    show includeSelfLoop (fun k => k) 0 (m.assign k v) ((m.assign k v).after k) = some m
    rw [hafter, List.head?_nil, includeSelfLoop_of_end, hsame]
  | cons y t ih =>
    intro m pre k v hm
    obtain ⟨k2, v2⟩ := y
    obtain ⟨⟨pre', hpre'⟩, hafter⟩ :=
      includeSelfLoop_step (fun k => k) m pre k v ((k2, v2) :: t) hm (le_refl k)
    have hsame : m.assign k v = m := by
      apply StdMap.ext_entries
      show assignEntry k v m.entries = m.entries
      rw [hm]
      exact assignEntry_same pre k v _ (ordered_split pre k v _ (hm ▸ m.ordered)).1
    show includeSelfLoop (fun k => k) (t.length + 1) (m.assign k v) ((m.assign k v).after k)
      = some m
    rw [hafter, List.head?_cons, hsame]
    exact ih m (pre ++ [(k, v)]) k2 v2 (by rw [hm]; simp)

theorem prefixed_lt_prefixed (c k : StdString) (h : k < c ++ k) :
    c ++ k < c ++ (c ++ k) := by
  exact List.Lex.append_left _ h c

/-- C7 as stated fails: the argument `other` may be the registry itself, and then the loop
iterates the map it inserts into. For the registry `{"a" -> 1}` and the prefix `"b"`, the entry
inserted under `"b.a"` lies after the iterator, is visited in its turn, and so on: the call
does not return within any number of iterations. -/
theorem includeSelf_never_returns :
    regLoop.params_.find "a".toList = some 1 ∧
      ¬ ∃ fuel : Nat, (regLoop.includeSelf fuel "b".toList).isSome = true := by
  refine ⟨by decide, ?_⟩
  rintro ⟨fuel, h⟩
  have hloop : includeSelfLoop (fun k => "b".toList ++ ".".toList ++ k) fuel regLoop.params_
      (some ("a".toList, 1)) = none := by
    apply includeSelfLoop_eq_none _ _ fuel regLoop.params_ "a".toList 1
    · exact ⟨"a".toList, by decide, le_refl _, by decide⟩
    · intro k hk
      exact prefixed_lt_prefixed ("b".toList ++ ".".toList) k hk
  have hcall : regLoop.includeSelf fuel "b".toList = none := by
    show Option.map _ (includeSelfLoop (fun k => "b".toList ++ ".".toList ++ k) fuel
      regLoop.params_ (some ("a".toList, 1))) = none
    rw [hloop]
    rfl
  rw [hcall] at h
  exact absurd h (by decide)

/-- C9 as stated fails: the registry `B` may be the registry `A` itself. For
`A = {"p.x" -> 2, "x" -> 1}` and the prefix `"p"`, the call `A.include(A, "p")` returns with
`A = {"p.p.x" -> 2, "p.x" -> 1, "x" -> 1}`: the key `"p.x"`, under which `A` held the object `2`,
is included under `"p.p.x"` with that object, but `"p.x"` itself now holds the object `1`. A
`setParam` on `A` under `"p.x"` and a read under the included key `"p.p.x"` act on different
objects. -/
theorem includeSelf_separates_key_from_included_key :
    regMix.params_.find "p.x".toList = some 2 ∧
      (regMix.includeSelf 2 "p".toList).map (fun r => r.params_.entries)
        = some regMixAfter.params_.entries ∧
      includedKey "p".toList "p.x".toList = "p.p.x".toList ∧
      regMixAfter.params_.find "p.p.x".toList = some 2 ∧
      regMixAfter.params_.find "p.x".toList = some 1 ∧
      regMixAfter.readValue shortParam
          (regMixAfter.setParam shortParam world0 "p.x".toList "42".toList).world
          "p.x".toList = some "42".toList ∧
      regMixAfter.readValue shortParam
          (regMixAfter.setParam shortParam world0 "p.x".toList "42".toList).world
          "p.p.x".toList = some "0".toList := by
  decide

theorem includeSelf_eq_include_of_returns (R R' : ParamSet) (p : StdString) (fuel : Nat)
    (h : R.includeSelf fuel p = some R') : R' = R.include R p := by
  have hmain : ∀ (key : StdString → StdString), (∀ k, k < key k → key k < key (key k)) →
      ∀ m', includeSelfLoop key fuel R.params_ R.params_.first = some m' →
        m' = R.params_.entries.foldl (fun acc it => acc.assign (key it.1) it.2) R.params_ := by
    intro key hkey m' hm'
    cases hentries : R.params_.entries with
    | nil =>
      have hfirst : R.params_.first = none := by rw [StdMap.first, hentries]; rfl
      rw [hfirst, includeSelfLoop_of_end] at hm'
      rw [← Option.some.inj hm']
      rfl
    | cons e t =>
      obtain ⟨k, v⟩ := e
      have hfirst : R.params_.first = some (k, v) := by rw [StdMap.first, hentries]; rfl
      rw [hfirst] at hm'
      exact includeSelfLoop_eq_foldl key hkey fuel R.params_ [] k v t m' hentries hm'
  cases p with
  | nil =>
    have h' : (includeSelfLoop (fun k => k) fuel R.params_ R.params_.first).map
        (fun m => ({ params_ := m } : ParamSet)) = some R' := h
    obtain ⟨m', hm', hR'⟩ := Option.map_eq_some'.mp h'
    rw [← hR', hmain (fun k => k) (fun k hk => absurd hk (lt_irrefl k)) m' hm']
    rfl
  | cons c t =>
    have h' : (includeSelfLoop (fun k => (c :: t) ++ ".".toList ++ k) fuel R.params_
        R.params_.first).map (fun m => ({ params_ := m } : ParamSet)) = some R' := h
    obtain ⟨m', hm', hR'⟩ := Option.map_eq_some'.mp h'
    rw [← hR', hmain (fun k => (c :: t) ++ ".".toList ++ k)
      (fun k hk => prefixed_lt_prefixed ((c :: t) ++ ".".toList) k hk) m' hm']
    rfl

theorem includeSelf_unprefixed_returns (R : ParamSet) :
    R.includeSelf R.params_.size [] = some R := by
  show (includeSelfLoop (fun k => k) R.params_.size R.params_ R.params_.first).map
    (fun m => ({ params_ := m } : ParamSet)) = some R
  cases hentries : R.params_.entries with
  | nil =>
    have hfirst : R.params_.first = none := by rw [StdMap.first, hentries]; rfl
    rw [hfirst, includeSelfLoop_of_end]
    rfl
  | cons e t =>
    obtain ⟨k, v⟩ := e
    have hfirst : R.params_.first = some (k, v) := by rw [StdMap.first, hentries]; rfl
    have hsize : R.params_.size = t.length + 1 := by rw [StdMap.size, hentries]; rfl
    rw [hfirst, hsize, includeSelfLoop_id_returns t R.params_ [] k v hentries]
    rfl

/-- C7, amended: for a non-empty prefix `p` and a registry `other` that is another object than
`R`, after `R.include(other, p)` every key `k` of `other` is found in `R` under `p + "." + k`
with the handle `other` holds under `k`; distinct keys `k` give distinct prefixed keys; and
every key of `R` after the call was a key of `R` before or is `p + "." + k` for a key `k` of
`other`. With `R` itself as the argument the call need not return; whenever it returns, `R` is
as if the entries it had before the call had been included from another registry, so the same
holds for the keys and handles `R` had before the call. -/
theorem include_prefixed_or_self {R other : ParamSet} {p : StdString} (hp : p ≠ []) :
    ((∀ (k : StdString) (h : GenericParamPtr), other.params_.find k = some h →
          (R.include other p).params_.find (p ++ ".".toList ++ k) = some h) ∧
        (∀ k1 k2 : StdString, k1 ≠ k2 → p ++ ".".toList ++ k1 ≠ p ++ ".".toList ++ k2) ∧
        (∀ k' : StdString, ((R.include other p).params_.find k').isSome = true →
          (R.params_.find k').isSome = true ∨
            ∃ k, (other.params_.find k).isSome = true ∧ k' = p ++ ".".toList ++ k)) ∧
      (∀ (fuel : Nat) (R' : ParamSet), R.includeSelf fuel p = some R' →
        R' = R.include R p ∧
          (∀ (k : StdString) (h : GenericParamPtr), R.params_.find k = some h →
            R'.params_.find (p ++ ".".toList ++ k) = some h) ∧
          (∀ k' : StdString, (R'.params_.find k').isSome = true →
            (R.params_.find k').isSome = true ∨
              ∃ k, (R.params_.find k).isSome = true ∧ k' = p ++ ".".toList ++ k)) := by
  refine ⟨include_prefixed hp, ?_⟩
  intro fuel R' hR'
  have heq := includeSelf_eq_include_of_returns R R' p fuel hR'
  have hself := @include_prefixed R R p hp
  rw [heq]
  exact ⟨rfl, hself.1, hself.2.2⟩

theorem include_prefixed_or_self_witness :
    ("ns".toList ≠ [] ∧ regA.params_.find "range".toList = some 1) ∧
      (regB.include regA "ns".toList).params_.find "ns.range".toList = some 1 ∧
      ("p".toList ≠ [] ∧
        (regMix.includeSelf 2 "p".toList).map (fun r => r.params_.entries)
          = some regMixAfter.params_.entries) :=
  ⟨⟨by decide, by decide⟩,
    (@include_prefixed_or_self regB regA "ns".toList (by decide)).1.1 "range".toList 1
      (by decide),
    by decide, by decide⟩

/-- C9, amended: when `A` holds the object `a` under `k` and `B` is another object than `A`,
then after `B.include(A, p)` the registry `B` holds the same object `a` under the included key
(`k` for an empty prefix, `p + "." + k` otherwise). Hence after `A.setParam(k, v)` the value
read through `B` under the included key is the value read through `A` under `k`, namely
`getValue()` of the object in the state `setValue(v)` left it in; and the same holds after a
`setParam` made through `B` under the included key, which also returns the same boolean. With
`A` itself as the argument and the empty prefix, the call returns and leaves `A` as it was. -/
theorem include_shares_objects_unless_aliased {σ : Type} (P : GenericParam σ) (A B : ParamSet)
    (w : World σ) (p k v : StdString) (a : GenericParamPtr) (hk : A.params_.find k = some a) :
    ((B.include A p).params_.find (includedKey p k) = some a ∧
        ((B.include A p).readValue P (A.setParam P w k v).world (includedKey p k)
            = A.readValue P (A.setParam P w k v).world k ∧
          A.readValue P (A.setParam P w k v).world k
            = some (P.getValue ((P.setValue a w.heap v).2 a))) ∧
        (A.readValue P ((B.include A p).setParam P w (includedKey p k) v).world k
            = (B.include A p).readValue P
                ((B.include A p).setParam P w (includedKey p k) v).world (includedKey p k) ∧
          A.readValue P ((B.include A p).setParam P w (includedKey p k) v).world k
            = some (P.getValue ((P.setValue a w.heap v).2 a))) ∧
        ((B.include A p).setParam P w (includedKey p k) v).result
          = (A.setParam P w k v).result) ∧
      A.includeSelf A.params_.size [] = some A :=
  ⟨include_shares_objects P A B w p k v a hk, includeSelf_unprefixed_returns A⟩

theorem include_shares_objects_unless_aliased_witness :
    regA.params_.find "range".toList = some 1 ∧
      ((regB.include regA "ns".toList).params_.find "ns.range".toList = some 1 ∧
        (regB.include regA "ns".toList).readValue shortParam
            (regA.setParam shortParam world0 "range".toList "42".toList).world "ns.range".toList
          = some "42".toList ∧
        regA.readValue shortParam
            ((regB.include regA "ns".toList).setParam shortParam world0 "ns.range".toList
              "42".toList).world "range".toList
          = some "42".toList) := by
  have h := (include_shares_objects_unless_aliased shortParam regA regB world0 "ns".toList
    "range".toList "42".toList 1 (by decide)).1
  exact ⟨by decide, h.1, (h.2.1.1.trans h.2.1.2).trans (by decide),
    h.2.2.1.2.trans (by decide)⟩

end ompl.base
